import Mathlib

/-!
Verification of the tag-version repository (src/tagversion/git.py and the
Version model of its test suite) against its natural-language specification.

The Python code is shallowly embedded: strings become `List Char` / `String`,
Python `str.split(sep, maxsplit)` becomes `pySplit`, `int(...)` becomes
`pyInt?`, modelling CPython's string-to-int conversion in full (the
decimal-digit-and-whitespace-to-ASCII transform over the Unicode 14.0
database of CPython 3.11, surrounding-whitespace stripping, an optional
sign, and single underscores between digits), raised
exceptions become an explicit `PyErr` error value, and lists that Python
mutates in place are threaded functionally.  `datetime.now().strftime(fmt)`
is an external effect: its result string is passed in as the `now` argument.
`datetime.strptime` is an external collaborator and is abstracted as a
boolean-valued oracle argument.  Error messages carried by exceptions are
not modelled, only the kind of exception.
-/

/-! ## Character classes -/

/-- ASCII decimal digit, the class `[0-9]` of the source regex. -/
def isDig (c : Char) : Bool := '0' ≤ c && c ≤ '9'

/-- Non-zero ASCII decimal digit, the class `[1-9]` of the source regex. -/
def isNzDig (c : Char) : Bool := '1' ≤ c && c ≤ '9'

/-- ASCII letter, the class `[A-Za-z]` of the source regex. -/
def isLet (c : Char) : Bool := ('A' ≤ c && c ≤ 'Z') || ('a' ≤ c && c ≤ 'z')

/-- Letter or hyphen, the class `[A-Za-z-]` of the source regex. -/
def isAlHy (c : Char) : Bool := isLet c || c = '-'

/-- Identifier character, the class `[0-9A-Za-z-]` of the source regex. -/
def isIdC (c : Char) : Bool := isDig c || isLet c || c = '-'

/-! ## Python string primitives -/

/-- Helper for `pySplit`: push a character onto the first chunk. -/
def withHead (x : Char) : List (List Char) → List (List Char)
  | [] => [[x]]
  | p :: ps => (x :: p) :: ps

/-- Python `s.split(sep, maxsplit)` for a single-character separator.
`none` is an unlimited maxsplit (Python `-1`/omitted).  Like Python, the
result is never empty and keeps empty chunks. -/
def pySplit (c : Char) : Option Nat → List Char → List (List Char)
  | _, [] => [[]]
  | m, x :: xs =>
    if x = c ∧ m ≠ some 0 then [] :: pySplit c (m.map Nat.pred) xs
    else withHead x (pySplit c m xs)

/-- Python `'.'.join(parts)` (over `List Char` chunks). -/
def joinDot : List (List Char) → List Char
  | [] => []
  | [p] => p
  | p :: ps => p ++ '.' :: joinDot ps

/-- Decimal value of a digit character. -/
def digVal (c : Char) : Nat := c.toNat - 48

/-- Numeric value of a decimal digit string, the core of Python `int`. -/
def digitsVal (ds : List Char) : Nat := ds.foldl (fun acc c => 10 * acc + digVal c) 0

/-- The decimal digit character for `d < 10`. -/
def digChar (d : Nat) : Char :=
  match d with
  | 0 => '0' | 1 => '1' | 2 => '2' | 3 => '3' | 4 => '4'
  | 5 => '5' | 6 => '6' | 7 => '7' | 8 => '8' | _ => '9'

/-- Auxiliary decimal printer; `fuel` bounds the number of digits. -/
def natDigitsAux : Nat → Nat → List Char
  | 0, _ => []
  | fuel + 1, n => if n = 0 then [] else natDigitsAux fuel (n / 10) ++ [digChar (n % 10)]

/-- Canonical decimal numeral of a natural number, Python `str(n)`. -/
def natDigits (n : Nat) : List Char := if n = 0 then ['0'] else natDigitsAux (n + 1) n

/-- A decimal integer literal: an optional sign followed directly by ASCII
decimal digits only — no surrounding whitespace, no digit grouping, no
non-ASCII digits.  This is the claim-side reading of `decimal integer
literal` in claim C10, to be compared with Python's actual `int`. -/
def intLit? : List Char → Option Int
  | [] => none
  | '-' :: ds => if ds ≠ [] ∧ ds.all isDig then some (-(digitsVal ds : Int)) else none
  | '+' :: ds => if ds ≠ [] ∧ ds.all isDig then some ((digitsVal ds : Int)) else none
  | ds => if ds.all isDig then some ((digitsVal ds : Int)) else none

/-- C `isspace` as consulted by CPython's `PyLong_FromString` after the
ASCII transform: space, tab, line feed, vertical tab, form feed, carriage
return.  (The ASCII controls `\x1c`-`\x1f` are Python *str* whitespace but
are below `\x7f`, so the transform copies them verbatim and the C scanner
rejects them: `int('\x1c1')` raises `ValueError` while `int('\x0b1')`
succeeds.) -/
def isCSpace (c : Char) : Bool :=
  c = ' ' || c = '\t' || c = '\n' || c = '\x0b' || c = '\x0c' || c = '\r'

/-- Unicode whitespace at or above `\x7f` (`Py_UNICODE_ISSPACE`): mapped to
a plain space by CPython's decimal-and-space transform. -/
def isHiSpace (c : Char) : Bool :=
  let n := c.toNat
  n = 0x85 || n = 0xa0 || n = 0x1680 || (0x2000 ≤ n && n ≤ 0x200a) ||
  n = 0x2028 || n = 0x2029 || n = 0x202f || n = 0x205f || n = 0x3000

/-- Zero code points of the runs of Unicode decimal digits (category `Nd`)
above ASCII, per the Unicode 14.0 database shipped with CPython 3.11; each
run is ten consecutive code points valued 0-9. -/
def ndZeros : List Nat :=
  [0x660, 0x6f0, 0x7c0, 0x966, 0x9e6, 0xa66, 0xae6, 0xb66, 0xbe6, 0xc66,
   0xce6, 0xd66, 0xde6, 0xe50, 0xed0, 0xf20, 0x1040, 0x1090, 0x17e0, 0x1810,
   0x1946, 0x19d0, 0x1a80, 0x1a90, 0x1b50, 0x1bb0, 0x1c40, 0x1c50, 0xa620,
   0xa8d0, 0xa900, 0xa9d0, 0xa9f0, 0xaa50, 0xabf0, 0xff10, 0x104a0, 0x10d30,
   0x11066, 0x110f0, 0x11136, 0x111d0, 0x112f0, 0x11450, 0x114d0, 0x11650,
   0x116c0, 0x11730, 0x118e0, 0x11950, 0x11c50, 0x11d50, 0x11da0, 0x16a60,
   0x16ac0, 0x16b50, 0x1d7ce, 0x1d7d8, 0x1d7e2, 0x1d7ec, 0x1d7f6, 0x1e140,
   0x1e2f0, 0x1e950, 0x1fbf0]

/-- Decimal value of a non-ASCII Unicode decimal digit (`Py_UNICODE_TODECIMAL`
for code points at or above `\x7f`), `none` for every other character. -/
def hiDecimal? (c : Char) : Option Nat :=
  match ndZeros.find? (fun z => z ≤ c.toNat && c.toNat ≤ z + 9) with
  | some z => some (c.toNat - z)
  | none => none

/-- CPython `_PyUnicode_TransformDecimalAndSpaceToASCII` on one character:
code points below `\x7f` pass through, Unicode whitespace becomes a space,
Unicode decimal digits become the ASCII digit of the same value; any other
character makes the conversion — and hence `int()` — fail. -/
def toAsciiDigitSpace (c : Char) : Option Char :=
  if c.toNat < 127 then some c
  else if isHiSpace c then some ' '
  else
    match hiDecimal? c with
    | some d => some (digChar d)
    | none => none

/-- The decimal-and-space transform over a whole string. -/
def transformDS : List Char → Option (List Char)
  | [] => some []
  | c :: rest =>
    match toAsciiDigitSpace c with
    | none => none
    | some c2 => (transformDS rest).map (fun t => c2 :: t)

/-- The digit scan of `PyLong_FromString`, entered after a first digit of
value `acc`: further digits accumulate; a single underscore is allowed only
between two digits (`1__2`, `1_` and `_1` all raise `ValueError`); the scan
stops at the first other character. -/
def scanUnd (acc : Nat) : List Char → Option (Nat × List Char)
  | [] => some (acc, [])
  | ['_'] => none
  | '_' :: d :: rest => if isDig d then scanUnd (10 * acc + digVal d) rest else none
  | c :: rest =>
    if isDig c then scanUnd (10 * acc + digVal c) rest
    else some (acc, c :: rest)

/-- Magnitude part of `PyLong_FromString`: a first digit, the underscore
digit scan, then only C whitespace may remain. -/
def pyIntMag (cs : List Char) : Option Nat :=
  match cs with
  | [] => none
  | c :: rest =>
    if isDig c then
      match scanUnd (digVal c) rest with
      | some (n, rest2) => if rest2.dropWhile isCSpace = [] then some n else none
      | none => none
    else none

/-- `PyLong_FromString` on the transformed ASCII string: leading C
whitespace, an optional sign glued to the digits, the magnitude. -/
def pyIntAscii (cs : List Char) : Option Int :=
  match cs.dropWhile isCSpace with
  | '-' :: rest => (pyIntMag rest).map (fun n => -(n : Int))
  | '+' :: rest => (pyIntMag rest).map (fun n => ((n : Int)))
  | rest => (pyIntMag rest).map (fun n => ((n : Int)))

/-- Python `int(s)` on a string: `some` value where the conversion
succeeds, `none` where Python raises `ValueError`.  Faithful to CPython:
surrounding whitespace (Unicode) is stripped, an optional sign is followed
by decimal digits — ASCII or any Unicode decimal digit — grouped by single
underscores. -/
def pyInt? (cs : List Char) : Option Int :=
  match transformDS cs with
  | some asc => pyIntAscii asc
  | none => none

/-! ## Exceptions and Python values -/

/-- The kinds of exception the embedded code can raise.  Messages are not
modelled. -/
inductive PyErr where
  | valueError
  | indexError
  | versionError
deriving DecidableEq, Repr

/-- An element of a Python list that mixes ints and strings, as produced by
the partial in-place `int(...)` loops of `git.py`. -/
inductive PyVal where
  | int (n : Int)
  | str (s : List Char)
deriving DecidableEq, Repr

/-- The argparse flags of the `version` subcommand that the core logic
reads (`git.py` `setup_subparser`).  `patch` defaults to `True` in the
source; here it is an explicit field. -/
structure Args where
  major : Bool
  minor : Bool
  patch : Bool
  calver : Bool
deriving DecidableEq, Repr

/-- The loop `for i in range(2): l[i] = int(l[i])`: converts the first two
chunks, returning them with the untouched tail; `IndexError` when the list
is too short, `ValueError` when a chunk is not an integer literal (every
conversion failure raises the same `ValueError`, so the order of the
failures is not observable). -/
def int2 : List (List Char) → Except PyErr (Int × Int × List (List Char))
  | [] => Except.error PyErr.indexError
  | [a] =>
    match pyInt? a with
    | none => Except.error PyErr.valueError
    | some _ => Except.error PyErr.indexError
  | a :: b :: rest =>
    match pyInt? a, pyInt? b with
    | some x, some y => Except.ok (x, y, rest)
    | _, _ => Except.error PyErr.valueError

/-- The loop `for i in range(3): l[i] = int(l[i])`, as `int2` but for the
first three chunks. -/
def int3 : List (List Char) → Except PyErr (Int × Int × Int × List (List Char))
  | [] => Except.error PyErr.indexError
  | [a] =>
    match pyInt? a with
    | none => Except.error PyErr.valueError
    | some _ => Except.error PyErr.indexError
  | [a, b] =>
    match pyInt? a, pyInt? b with
    | none, _ => Except.error PyErr.valueError
    | some _, none => Except.error PyErr.valueError
    | some _, some _ => Except.error PyErr.indexError
  | a :: b :: c :: rest =>
    match pyInt? a, pyInt? b, pyInt? c with
    | some x, some y, some z => Except.ok (x, y, z, rest)
    | _, _, _ => Except.error PyErr.valueError

/-! ## git.py embeddings -/

/-- `version.split('-', 1)[0]`: the head of the version string before the
first dash. -/
def headSplit (version : String) : List Char :=
  (pySplit '-' (some 1) version.data).headD []

/-- `GitVersion.get_next_version` (git.py lines 194-210): split the dash-free
head on `'.'` (maxsplit 3), `int`-ify the first three components, apply the
highest-priority requested bump, and return the first three elements. -/
def get_next_version (args : Args) (version : String) : Except PyErr (List PyVal) :=
  match int3 (pySplit '.' (some 3) (headSplit version)) with
  | Except.error e => Except.error e
  | Except.ok (a, b, c, _) =>
    if args.major then Except.ok [PyVal.int (a + 1), PyVal.int 0, PyVal.int 0]
    else if args.minor then Except.ok [PyVal.int a, PyVal.int (b + 1), PyVal.int 0]
    else if args.patch then Except.ok [PyVal.int a, PyVal.int b, PyVal.int (c + 1)]
    else Except.ok [PyVal.int a, PyVal.int b, PyVal.int c]

/-- `GitVersion.get_next_calver_version` (git.py lines 212-244).  `now` is
the result of `datetime.now().strftime(self.args.calver_format)`.  The date
string is split on `'.'` (maxsplit 2) and its first two chunks `int`-ified,
then the version head is split and its first three chunks `int`-ified, and
only then are the major/minor rejections and the patch computation reached.
The returned list is `split_calver` (which may still hold a raw string
chunk when the date format has more than two dot-separated parts) with the
patch appended, truncated to three elements. -/
def get_next_calver_version (args : Args) (now : String) (version : String) :
    Except PyErr (List PyVal) :=
  match int2 (pySplit '.' (some 2) now.data) with
  | Except.error e => Except.error e
  | Except.ok (d1, d2, calRest) =>
    match int3 (pySplit '.' (some 3) (headSplit version)) with
    | Except.error e => Except.error e
    | Except.ok (a, b, c, _) =>
      let split_calver : List PyVal :=
        PyVal.int d1 :: PyVal.int d2 :: calRest.map PyVal.str
      if args.major then Except.error PyErr.versionError
      else if args.minor then Except.error PyErr.versionError
      else if args.patch then
        if split_calver = [PyVal.int a, PyVal.int b] then
          Except.ok ((split_calver ++ [PyVal.int (c + 1)]).take 3)
        else
          Except.ok ((split_calver ++ [PyVal.int 0]).take 3)
      else Except.ok (split_calver.take 3)

/-- `INITIAL_VERSION` of git.py. -/
def INITIAL_VERSION : String := "0.0.0"

/-- `GitVersion.bump` (git.py lines 246-263).  `current` is the result of
the `version` property (`none` when `git describe` failed); a falsy current
version is replaced by `INITIAL_VERSION`.  In calver mode it delegates to
`get_next_calver_version`; otherwise a version with no dash at all raises
`VersionError` (`'Is version=... already bumped?'`) and a dashed version is
bumped via `get_next_version` on its head before the first dash. -/
def GitVersion.bump (args : Args) (now : String) (current : Option String) :
    Except PyErr (List PyVal) :=
  let cv : String :=
    match current with
    | none => INITIAL_VERSION
    | some s => if s = "" then INITIAL_VERSION else s
  if args.calver then get_next_calver_version args now cv
  else
    let split_dashes := pySplit '-' none cv.data
    if split_dashes.length = 1 then Except.error PyErr.versionError
    else get_next_version args (String.mk (split_dashes.headD []))

/-- `is_calver` (git.py lines 46-56): join the first two dot-separated
components of the version back with a dot and try to parse the result
against the date format.  `strptimeOk d fmt` abstracts the external
`datetime.strptime(d, fmt)` call, `true` iff it does not raise. -/
def is_calver (strptimeOk : String → String → Bool)
    (calver_version calver_format : String) : Bool :=
  strptimeOk
    (String.mk (joinDot ((pySplit '.' (some 2) calver_version.data).take 2)))
    calver_format

/-! ## The Version model

Modelled from the spec: `tagversion/version.py` (the `Version` class with
`parse`, `bump` and `__str__` used by `tests/test_version.py`) is not among
the provided sources, so the data model and its operations below follow the
specification sections 3, 4.1 and 4.2 verbatim: the five attributes, the
left-to-right parse grammar (optional text up to a final `/`, a dotted
numeric triple, then either a glued `rc<digits>` suffix with an empty
separator, a `-`-led free-form suffix, or nothing), rendering by
concatenation, and the priority-ordered bump rules. -/

/-- Modelled from the spec: the five attributes of a `Version` (spec section
3); `pfx` is the spec's `prefix` attribute (`prefix` is a Lean keyword).
Absent numeric components mark an unreleased version. -/
structure Version where
  pfx : Option String
  major : Option Nat
  minor : Option Nat
  patch : Option Nat
  prereleasedash : Option String
  prerelease : Option String
deriving DecidableEq, Repr

/-- Split at the last `'/'`, keeping the slash with the leading part;
`none` when there is no slash. -/
def splitLastSlash : List Char → Option (List Char × List Char)
  | [] => none
  | c :: cs =>
    match splitLastSlash cs with
    | some (p, r) => some (c :: p, r)
    | none => if c = '/' then some (['/'], cs) else none

/-- Maximal leading digit run and the remainder. -/
def takeDigits (cs : List Char) : List Char × List Char :=
  (cs.takeWhile isDig, cs.dropWhile isDig)

/-- Modelled from the spec: recognize `major.minor.patch` at the front of
the string — three dot-separated non-empty digit runs — returning the three
digit runs and the remaining suffix. -/
def parseTriple (cs : List Char) : Option (List Char × List Char × List Char × List Char) :=
  let (a, r1) := takeDigits cs
  if a = [] then none
  else
    match r1 with
    | '.' :: r2 =>
      let (b, r3) := takeDigits r2
      if b = [] then none
      else
        match r3 with
        | '.' :: r4 =>
          let (c, suffix) := takeDigits r4
          if c = [] then none else some (a, b, c, suffix)
        | _ => none
    | _ => none

/-- Modelled from the spec: classify the text after the numeric triple into
`(prereleasedash, prerelease)` — a glued `rc<digits>` suffix has an empty
separator, a `-`-led suffix keeps the dash as separator, no suffix leaves
both absent; any other leftover text makes the whole parse fail. -/
def classifySuffix : List Char → Option (Option String × Option String)
  | [] => some (none, none)
  | c :: rest =>
    if c = '-' then some (some "-", some (String.mk rest))
    else
      match rest with
      | c2 :: ds =>
        if c = 'r' ∧ c2 = 'c' ∧ ds ≠ [] ∧ ds.all isDig then
          some (some "", some (String.mk (c :: c2 :: ds)))
        else none
      | [] => none

/-- Modelled from the spec: the unreleased representation — all numeric
components absent, the raw string kept verbatim in `prerelease`. -/
def unreleasedVersion (raw : String) : Version :=
  { pfx := none, major := none, minor := none, patch := none,
    prereleasedash := none, prerelease := some raw }

/-- Modelled from the spec: the numeric-triple branch of `Version.parse` —
the part after the optional prefix has been removed. -/
def parseCore (p : Option String) (rest : List Char) : Option Version :=
  match parseTriple rest with
  | none => none
  | some (a, b, c, suffix) =>
    match classifySuffix suffix with
    | none => none
    | some (dash, pre) =>
      some { pfx := p, major := some (digitsVal a), minor := some (digitsVal b),
             patch := some (digitsVal c), prereleasedash := dash, prerelease := pre }

/-- Modelled from the spec: `Version.parse` (spec section 4.1).  Text up to
and including the final `/` becomes the stored prefix when the rest parses
as a numeric triple with a recognized suffix; otherwise the whole raw
string degrades to the unreleased representation. -/
def parseVersion (raw : String) : Version :=
  match splitLastSlash raw.data with
  | some (p, rest) => (parseCore (some (String.mk p)) rest).getD (unreleasedVersion raw)
  | none => (parseCore none raw.data).getD (unreleasedVersion raw)

/-- Modelled from the spec: `is_unreleased` is true iff the numeric triple
is absent. -/
def Version.is_unreleased (v : Version) : Bool :=
  v.major.isNone && v.minor.isNone && v.patch.isNone

/-- Trailing digits of an `rc<digits>` prerelease, `none` when the
prerelease does not match the pattern. -/
def rcDigits? (p : String) : Option (List Char) :=
  match p.data with
  | c1 :: c2 :: ds =>
    if c1 = 'r' ∧ c2 = 'c' ∧ ds ≠ [] ∧ ds.all isDig then some ds else none
  | _ => none

/-- Modelled from the spec: `is_rc` is true iff `prerelease` matches
`rc<digits>`. -/
def Version.is_rc (v : Version) : Bool :=
  match v.prerelease with
  | some p => (rcDigits? p).isSome
  | none => false

/-- Modelled from the spec: `Version.__str__` (spec section 4.1 Render):
`prefix + major.minor.patch + prereleasedash + prerelease` when the triple
is present, the raw `prerelease` text verbatim otherwise. -/
def Version.render (v : Version) : String :=
  match v.major, v.minor, v.patch with
  | some M, some m, some p =>
    String.mk ((v.pfx.getD "").data ++ natDigits M ++ '.' :: natDigits m
      ++ '.' :: natDigits p ++ (v.prereleasedash.getD "").data
      ++ (v.prerelease.getD "").data)
  | _, _, _ => v.prerelease.getD ""

/-- Modelled from the spec: `Version.bump` (spec section 4.2).  Exactly one
release-number bump is honored, priority major > minor > patch; a
prerelease bump combined with a release-number bump restarts at `rc1`; a
prerelease bump alone increments an existing `rc<N>` or starts `rc1`; no
flags promote a prerelease to a stable release; bumping an unreleased
version fails with `VersionError`. -/
def Version.bump (v : Version)
    (bump_major bump_minor bump_patch bump_prerelease : Bool) :
    Except PyErr Version :=
  match v.major, v.minor, v.patch with
  | some M, some m, some p =>
    let newPre : Option String := if bump_prerelease then some "rc1" else none
    if bump_major then
      Except.ok { v with major := some (M + 1), minor := some 0,
                         patch := some 0, prereleasedash := none, prerelease := newPre }
    else if bump_minor then
      Except.ok { v with minor := some (m + 1), patch := some 0,
                         prereleasedash := none, prerelease := newPre }
    else if bump_patch then
      Except.ok { v with patch := some (p + 1),
                         prereleasedash := none, prerelease := newPre }
    else if bump_prerelease then
      match v.prerelease with
      | some pre =>
        match rcDigits? pre with
        | some ds =>
          let pre2 : String := String.mk ('r' :: 'c' :: natDigits (digitsVal ds + 1))
          Except.ok { v with prerelease := some pre2 }
        | none => Except.ok { v with prerelease := some "rc1" }
      | none => Except.ok { v with prerelease := some "rc1" }
    else
      Except.ok { v with prereleasedash := none, prerelease := none }
  | _, _, _ => Except.error PyErr.versionError

/-! ## A regex evaluator for SEMVER_RE

`SEMVER_RE` (git.py lines 19-33) is embedded as an abstract syntax tree
`RE` together with a matcher `reMatch` that returns every suffix of the
input reachable by matching the expression at the front (Python's
backtracking engine finds a match iff at least one such suffix satisfies
the rest of the pattern, so for the boolean `is_semver` the set semantics
is equivalent).  The star case discards iterations that consume nothing,
which never happens in `SEMVER_RE` (every starred subexpression consumes at
least one character).  `fuel` is structural recursion fuel; `matchesFuelLow`
below shows the fuel chosen in `is_semver` is always sufficient. -/

/-- Regular-expression ASTs: single-character classes, empty, sequencing,
ordered alternation, greedy star, and zero-width lookahead `(?=...)`. -/
inductive RE where
  | cls (p : Char → Bool)
  | eps
  | seq (a b : RE)
  | alt (a b : RE)
  | star (a : RE)
  | look (a : RE)

/-- Structural size of a regex, used for fuel bounds. -/
def RE.size : RE → Nat
  | RE.cls _ => 1
  | RE.eps => 1
  | RE.seq a b => a.size + b.size + 1
  | RE.alt a b => a.size + b.size + 1
  | RE.star a => a.size + 1
  | RE.look a => a.size + 1

/-- `X{0,1}`: greedy option. -/
def RE.opt (a : RE) : RE := RE.alt a RE.eps

/-- `X+`: one or more. -/
def RE.plus (a : RE) : RE := RE.seq a (RE.star a)

/-- All suffixes remaining after matching `re` at the front of the input.
Each recursive call spends one unit of fuel; with fuel at least
`(re.size + 1) * (input.length + 1)` no result is missed
(`matchesComplete` below). -/
def reMatch : Nat → RE → List Char → List (List Char)
  | 0, _, _ => []
  | _ + 1, RE.cls _, [] => []
  | _ + 1, RE.cls p, c :: rest => if p c then [rest] else []
  | _ + 1, RE.eps, cs => [cs]
  | fuel + 1, RE.seq a b, cs => (reMatch fuel a cs).flatMap (fun m => reMatch fuel b m)
  | fuel + 1, RE.alt a b, cs => reMatch fuel a cs ++ reMatch fuel b cs
  | fuel + 1, RE.look a, cs => if (reMatch fuel a cs).isEmpty then [] else [cs]
  | fuel + 1, RE.star a, cs =>
    ((reMatch fuel a cs).filter (fun m => m.length < cs.length)).flatMap
      (fun m => reMatch fuel (RE.star a) m) ++ [cs]

/-- The fuel-free matching relation: `Matches re cs r` holds when matching
`re` at the front of `cs` can leave exactly the suffix `r`. -/
inductive Matches : RE → List Char → List Char → Prop where
  | cls {p : Char → Bool} {c : Char} {r : List Char} :
      p c = true → Matches (RE.cls p) (c :: r) r
  | eps {cs : List Char} : Matches RE.eps cs cs
  | seq {a b : RE} {cs m r : List Char} :
      Matches a cs m → Matches b m r → Matches (RE.seq a b) cs r
  | altL {a b : RE} {cs r : List Char} :
      Matches a cs r → Matches (RE.alt a b) cs r
  | altR {a b : RE} {cs r : List Char} :
      Matches b cs r → Matches (RE.alt a b) cs r
  | look {a : RE} {cs r : List Char} :
      Matches a cs r → Matches (RE.look a) cs cs
  | starN {a : RE} {cs : List Char} : Matches (RE.star a) cs cs
  | starC {a : RE} {cs m r : List Char} :
      Matches a cs m → m.length < cs.length → Matches (RE.star a) m r →
      Matches (RE.star a) cs r

/-- `Major`, `Minor`, `Patch` of SEMVER_RE: `0|[1-9][0-9]*`. -/
def numRE : RE := RE.alt (RE.cls (fun c => c = '0')) (RE.seq (RE.cls isNzDig) (RE.star (RE.cls isDig)))

/-- The literal dot `\.`. -/
def dotRE : RE := RE.cls (fun c => c = '.')

/-- The `VersionTripple` group: `Major\.Minor\.Patch`. -/
def tripleRE : RE := RE.seq numRE (RE.seq dotRE (RE.seq numRE (RE.seq dotRE numRE)))

/-- First prerelease-identifier alternative:
`(?=[0]{1}[0-9A-Za-z-]{0})(?:[0]{1})` — a lone zero (the `{0}`-quantified
class is the empty expression). -/
def preAlt1 : RE :=
  RE.seq (RE.look (RE.cls (fun c => c = '0'))) (RE.cls (fun c => c = '0'))

/-- Second prerelease-identifier alternative:
`(?=[1-9]{1}[0-9]*[A-Za-z]{0})(?:[0-9]+)` — digits with a non-zero lead. -/
def preAlt2 : RE :=
  RE.seq (RE.look (RE.seq (RE.cls isNzDig) (RE.star (RE.cls isDig))))
    (RE.plus (RE.cls isDig))

/-- Third prerelease-identifier alternative:
`(?=[0-9]*[A-Za-z-]+[0-9A-Za-z-]*)(?:[0-9A-Za-z-]+)` — an alphanumeric /
hyphen identifier announced by a letter-or-hyphen after a digit run. -/
def preAlt3 : RE :=
  RE.seq
    (RE.look (RE.seq (RE.star (RE.cls isDig))
      (RE.seq (RE.plus (RE.cls isAlHy)) (RE.star (RE.cls isIdC)))))
    (RE.plus (RE.cls isIdC))

/-- The first prerelease identifier (no leading dot). -/
def preIdent1 : RE := RE.alt preAlt1 (RE.alt preAlt2 preAlt3)

/-- A subsequent prerelease identifier, each alternative prefixed by `\.`. -/
def preIdentDotted : RE :=
  RE.alt (RE.seq dotRE preAlt1) (RE.alt (RE.seq dotRE preAlt2) (RE.seq dotRE preAlt3))

/-- The `Prerelease` group: a first identifier then dot-prefixed ones. -/
def prereleaseRE : RE := RE.seq preIdent1 (RE.star preIdentDotted)

/-- A build identifier: `[0-9A-Za-z-]+`. -/
def buildIdentRE : RE := RE.plus (RE.cls isIdC)

/-- The `Build` group: `[0-9A-Za-z-]+(?:\.[0-9A-Za-z-]+)*`. -/
def buildRE : RE := RE.seq buildIdentRE (RE.star (RE.seq dotRE buildIdentRE))

/-- The `Tags` group: `(?:\-Prerelease){0,1}(?:\+Build){0,1}`. -/
def tagsRE : RE :=
  RE.seq (RE.opt (RE.seq (RE.cls (fun c => c = '-')) prereleaseRE))
    (RE.opt (RE.seq (RE.cls (fun c => c = '+')) buildRE))

/-- The whole SEMVER_RE pattern between `^` and `$`. -/
def semverRE : RE := RE.seq tripleRE tagsRE

/-- Python's `$` anchor without `re.MULTILINE`: the position is the end of
the string or just before a single trailing newline. -/
def dollarOk (r : List Char) : Bool := r = [] || r = ['\n']

/-- Sufficient fuel for `reMatch` on `semverRE` and this input. -/
def semverFuel (cs : List Char) : Nat := (semverRE.size + 1) * (cs.length + 1)

/-- `is_semver` (git.py lines 59-60): `SEMVER_RE.match(version)` is not
`None`.  `re.match` anchors at the start; the pattern's own `$` closes the
other end. -/
def is_semver (version : String) : Bool :=
  (reMatch (semverFuel version.data) semverRE version.data).any dollarOk

/-! ## The canonical semver grammar

The reference grammar the specification describes for `is_semver`
(`MAJOR.MINOR.PATCH` with no leading zeros, optional dash-led dot-separated
prerelease identifiers, optional plus-led build identifiers).  These
definitions follow the specification's words, to be compared with the
regex embedding above. -/

/-- A numeric identifier: `0` or a non-zero-leading digit string. -/
def numericIdent (w : List Char) : Bool :=
  match w with
  | [] => false
  | c :: cs => (c = '0' && cs = []) || (isNzDig c && cs.all isDig)

/-- An alphanumeric/hyphen identifier: non-empty, over `[0-9A-Za-z-]`, with
at least one non-digit (letter or hyphen). -/
def alnumIdent (w : List Char) : Bool :=
  !w.isEmpty && w.all isIdC && w.any isAlHy

/-- A prerelease identifier. -/
def preIdentOK (w : List Char) : Bool := numericIdent w || alnumIdent w

/-- A build identifier: non-empty over `[0-9A-Za-z-]`. -/
def buildIdentOK (w : List Char) : Bool := !w.isEmpty && w.all isIdC

/-- `MAJOR.MINOR.PATCH`: exactly three dot-separated numeric identifiers. -/
def tripleOK (w : List Char) : Bool :=
  match pySplit '.' none w with
  | [a, b, c] => numericIdent a && numericIdent b && numericIdent c
  | _ => false

/-- The core and the optional dash-led prerelease list. -/
def coreOK (w : List Char) : Bool :=
  match pySplit '-' (some 1) w with
  | [t] => tripleOK t
  | [t, p] => tripleOK t && (pySplit '.' none p).all preIdentOK
  | _ => false

/-- The canonical semantic-version grammar over the whole string. -/
def semverGrammar (s : String) : Bool :=
  match pySplit '+' (some 1) s.data with
  | [core] => coreOK core
  | [core, build] => coreOK core && (pySplit '.' none build).all buildIdentOK
  | _ => false

/-- Remove a single trailing newline, if present. -/
def stripNl (cs : List Char) : List Char :=
  match cs.getLast? with
  | some c => if c = '\n' then cs.dropLast else cs
  | none => cs

/-! ## Claim-side predicates -/

/-- The totality precondition on `get_next_version`'s input: the dash-free
head has at least three dot-separated components and the first three are
accepted by Python `int` (`pyInt?`). -/
def gnvPre (version : String) : Bool :=
  match pySplit '.' (some 3) (headSplit version) with
  | a :: b :: c :: _ => (pyInt? a).isSome && (pyInt? b).isSome && (pyInt? c).isSome
  | _ => false

/-- The precondition as worded by claim C10: the first three dot-separated
components of the dash-free head are decimal integer *literals*
(`intLit?`).  Strictly narrower than `gnvPre`: Python `int` also accepts
e.g. surrounding whitespace, which no reading of `decimal integer literal`
covers. -/
def gnvPreLit (version : String) : Bool :=
  match pySplit '.' (some 3) (headSplit version) with
  | a :: b :: c :: _ => (intLit? a).isSome && (intLit? b).isSome && (intLit? c).isSome
  | _ => false

/-- The recognized suffix shapes after the numeric triple: nothing, a
dash-led free-form suffix, or a glued `rc<digits>` suffix. -/
def SuffixForm (suffix : List Char) : Prop :=
  suffix = [] ∨ (∃ r, suffix = '-' :: r ∧ '/' ∉ r) ∨
  (∃ ds, suffix = 'r' :: 'c' :: ds ∧ ds ≠ [] ∧ ds.all isDig = true)

/-- A well-formed version string with a dotted numeric triple (claim C2):
an optional prefix ending in `/`, three canonical decimal numerals
separated by dots, and a recognized suffix shape with no `/` after the
prefix. -/
def WellFormed (s : String) : Prop :=
  ∃ pfx a b c suffix,
    s.data = pfx ++ (a ++ '.' :: (b ++ '.' :: (c ++ suffix))) ∧
    (pfx = [] ∨ ∃ p, pfx = p ++ ['/']) ∧
    natDigits (digitsVal a) = a ∧ natDigits (digitsVal b) = b ∧
    natDigits (digitsVal c) = c ∧ SuffixForm suffix

/-! ## Lemmas on the string primitives -/

theorem withHead_ne_nil (x : Char) (l : List (List Char)) : withHead x l ≠ [] := by
  cases l <;> simp [withHead]

theorem pySplit_ne_nil (c : Char) (m : Option Nat) (cs : List Char) :
    pySplit c m cs ≠ [] := by
  induction cs generalizing m with
  | nil => simp [pySplit]
  | cons x xs ih =>
    rw [pySplit]
    split
    · simp
    · exact withHead_ne_nil _ _

theorem withHead_length (x : Char) (l : List (List Char)) (h : l ≠ []) :
    (withHead x l).length = l.length := by
  cases l with
  | nil => exact absurd rfl h
  | cons p ps => simp [withHead]

theorem pySplit_none_length_one (c : Char) (cs : List Char) :
    (pySplit c none cs).length = 1 ↔ c ∉ cs := by
  induction cs with
  | nil => simp [pySplit]
  | cons x xs ih =>
    rw [pySplit]
    by_cases hx : x = c
    · subst hx
      rw [if_pos ⟨rfl, by simp⟩]
      have h0 : pySplit x none xs ≠ [] := pySplit_ne_nil _ _ _
      constructor
      · intro h
        exfalso
        have : (pySplit x ((none : Option Nat).map Nat.pred) xs).length = 0 := by
          simpa using h
        exact h0 (List.length_eq_zero.mp this)
      · intro h
        exact absurd (List.mem_cons_self x xs) h
    · have hcond : ¬(x = c ∧ (none : Option Nat) ≠ some 0) := fun h => hx h.1
      rw [if_neg hcond, withHead_length _ _ (pySplit_ne_nil _ _ _), ih]
      constructor
      · intro h hmem
        rcases List.mem_cons.mp hmem with h1 | h2
        · exact hx h1.symm
        · exact h h2
      · intro h hmem
        exact h (List.mem_cons_of_mem _ hmem)

theorem pySplit_no_sep (c : Char) (m : Option Nat) (a : List Char) (ha : c ∉ a) :
    pySplit c m a = [a] := by
  induction a generalizing m with
  | nil => simp [pySplit]
  | cons x xs ih =>
    rw [pySplit]
    have hx : ¬x = c := fun h => ha (h ▸ List.mem_cons_self x xs)
    rw [if_neg (fun h => hx h.1)]
    rw [ih _ (fun h => ha (List.mem_cons_of_mem _ h))]
    simp [withHead]

theorem pySplit_cons_sep (c : Char) (k : Nat) (a rest : List Char) (ha : c ∉ a) :
    pySplit c (some (k + 1)) (a ++ c :: rest) = a :: pySplit c (some k) rest := by
  induction a with
  | nil =>
    rw [List.nil_append, pySplit, if_pos ⟨rfl, by simp⟩]
    rfl
  | cons x xs ih =>
    have hx : ¬x = c := fun h => ha (h ▸ List.mem_cons_self x xs)
    rw [List.cons_append, pySplit, if_neg (fun h => hx h.1)]
    rw [ih (fun h => ha (List.mem_cons_of_mem _ h))]
    simp [withHead]

theorem pySplit_none_cons_sep (c : Char) (a rest : List Char) (ha : c ∉ a) :
    pySplit c none (a ++ c :: rest) = a :: pySplit c none rest := by
  induction a with
  | nil =>
    rw [List.nil_append, pySplit, if_pos ⟨rfl, by simp⟩]
    rfl
  | cons x xs ih =>
    have hx : ¬x = c := fun h => ha (h ▸ List.mem_cons_self x xs)
    rw [List.cons_append, pySplit, if_neg (fun h => hx h.1)]
    rw [ih (fun h => ha (List.mem_cons_of_mem _ h))]
    simp [withHead]

/-- Every error raised by `int3` is a `ValueError` or an `IndexError`. -/
theorem int3_error_kind (l : List (List Char)) (e : PyErr)
    (h : int3 l = Except.error e) : e = PyErr.valueError ∨ e = PyErr.indexError := by
  match l with
  | [] => right; rw [int3] at h; exact (Except.error.injEq _ _).mp h.symm
  | [a] =>
    rw [int3] at h
    cases hpa : pyInt? a <;> rw [hpa] at h <;> simp at h <;> simp [h]
  | [a, b] =>
    rw [int3] at h
    cases hpa : pyInt? a <;> cases hpb : pyInt? b <;>
      rw [hpa, hpb] at h <;> simp at h <;> simp [h]
  | a :: b :: c :: rest =>
    rw [int3] at h
    cases hpa : pyInt? a <;> cases hpb : pyInt? b <;> cases hpc : pyInt? c <;>
      rw [hpa, hpb, hpc] at h <;> simp at h <;> simp [h]

/-- `get_next_version` never raises `VersionError`. -/
theorem get_next_version_ne_versionError (args : Args) (version : String) :
    get_next_version args version ≠ Except.error PyErr.versionError := by
  obtain ⟨mj, mn, pt, cv⟩ := args
  cases h : int3 (pySplit '.' (some 3) (headSplit version)) with
  | error e =>
    rw [get_next_version, h]
    rcases int3_error_kind _ _ h with h1 | h1 <;> subst h1 <;> simp
  | ok t =>
    obtain ⟨a, b, c, rest⟩ := t
    rw [get_next_version, h]
    cases mj <;> cases mn <;> cases pt <;> simp

/-! ## Claim C1 -/

/-- C1: for every version string whose dash-free head int-parses as a
numeric triple `(a, b, c)`, `get_next_version` returns `[a+1, 0, 0]` when a
major bump is requested, `[a, b+1, 0]` when a minor bump (and no major) is
requested, and `[a, b, c+1]` when a patch bump (and no major/minor) is
requested — the priority-ordered dispatch of git.py lines 200-208. -/
theorem claim_C1_bump_triple (args : Args) (version : String)
    (a b c : Int) (rest : List (List Char))
    (h : int3 (pySplit '.' (some 3) (headSplit version)) = Except.ok (a, b, c, rest)) :
    (args.major = true →
      get_next_version args version = Except.ok [PyVal.int (a + 1), PyVal.int 0, PyVal.int 0]) ∧
    (args.major = false → args.minor = true →
      get_next_version args version = Except.ok [PyVal.int a, PyVal.int (b + 1), PyVal.int 0]) ∧
    (args.major = false → args.minor = false → args.patch = true →
      get_next_version args version = Except.ok [PyVal.int a, PyVal.int b, PyVal.int (c + 1)]) := by
  rw [get_next_version, h]
  refine ⟨fun h1 => ?_, fun h1 h2 => ?_, fun h1 h2 h3 => ?_⟩ <;> simp [h1]
  · simp [h2]
  · simp [h2, h3]

/-- Witness for C1 at the version `1.2.3` with each of the three bumps. -/
theorem claim_C1_bump_triple_witness :
    get_next_version ⟨true, false, true, false⟩ "1.2.3"
      = Except.ok [PyVal.int 2, PyVal.int 0, PyVal.int 0] ∧
    get_next_version ⟨false, true, true, false⟩ "1.2.3"
      = Except.ok [PyVal.int 1, PyVal.int 3, PyVal.int 0] ∧
    get_next_version ⟨false, false, true, false⟩ "1.2.3"
      = Except.ok [PyVal.int 1, PyVal.int 2, PyVal.int 4] := by
  refine ⟨?_, ?_, ?_⟩
  · exact (claim_C1_bump_triple ⟨true, false, true, false⟩ "1.2.3" 1 2 3 [] rfl).1 rfl
  · exact (claim_C1_bump_triple ⟨false, true, true, false⟩ "1.2.3" 1 2 3 [] rfl).2.1 rfl rfl
  · exact (claim_C1_bump_triple ⟨false, false, true, false⟩ "1.2.3" 1 2 3 [] rfl).2.2 rfl rfl rfl

/-! ## Claim C10 -/

/-- C10 counterexample: on `" 1.2.3"` the first head component `" 1"` is
not a decimal integer literal — the claimed precondition fails — yet
`get_next_version` succeeds with the bumped triple, because Python `int`
strips surrounding whitespace; so the claimed failure direction (`for any
input violating this ... the integer conversion or list indexing fails`)
is false of the program. -/
theorem claim_C10_counterexample :
    gnvPreLit " 1.2.3" = false ∧
    get_next_version ⟨false, false, true, false⟩ " 1.2.3"
      = Except.ok [PyVal.int 1, PyVal.int 2, PyVal.int 4] :=
  ⟨rfl, rfl⟩

/-- C10 (amended): `get_next_version` succeeds exactly under the
precondition that the dash-free head has at least three dot-separated
components whose first three are accepted by Python `int` — optionally
signed, underscore-grouped decimal numerals with surrounding whitespace
allowed — and on any violating input the failure is the int conversion
(`ValueError`) or the list indexing (`IndexError`); under the precondition
the error branch is unreachable. -/
theorem claim_C10_totality (args : Args) (version : String) :
    (gnvPre version = true → ∃ t, get_next_version args version = Except.ok t) ∧
    (gnvPre version = false →
      get_next_version args version = Except.error PyErr.valueError ∨
      get_next_version args version = Except.error PyErr.indexError) := by
  obtain ⟨mj, mn, pt, cv⟩ := args
  rcases hl : pySplit '.' (some 3) (headSplit version) with _ | ⟨a, _ | ⟨b, _ | ⟨c, rest⟩⟩⟩
  · exact ⟨fun hp => absurd hp (by rw [gnvPre, hl]; simp),
      fun _ => Or.inr (by rw [get_next_version, hl]; rfl)⟩
  · refine ⟨fun hp => absurd hp (by rw [gnvPre, hl]; simp), fun _ => ?_⟩
    rw [get_next_version, hl]
    cases hpa : pyInt? a
    · left; simp [int3, hpa]
    · right; simp [int3, hpa]
  · refine ⟨fun hp => absurd hp (by rw [gnvPre, hl]; simp), fun _ => ?_⟩
    rw [get_next_version, hl]
    cases hpa : pyInt? a
    · left; simp [int3, hpa]
    · cases hpb : pyInt? b
      · left; simp [int3, hpa, hpb]
      · right; simp [int3, hpa, hpb]
  · constructor
    · intro hp
      rw [gnvPre, hl] at hp
      simp only [Bool.and_eq_true, Option.isSome_iff_exists] at hp
      obtain ⟨⟨⟨x, hpa⟩, y, hpb⟩, z, hpc⟩ := hp
      rw [get_next_version, hl]
      cases mj <;> cases mn <;> cases pt <;> simp [int3, hpa, hpb, hpc]
    · intro hp
      rw [gnvPre, hl] at hp
      rw [get_next_version, hl]
      cases hpa : pyInt? a with
      | none => left; simp [int3, hpa]
      | some x =>
        cases hpb : pyInt? b with
        | none => left; simp [int3, hpa, hpb]
        | some y =>
          cases hpc : pyInt? c with
          | none => left; simp [int3, hpa, hpb, hpc]
          | some z => simp [hpa, hpb, hpc] at hp

/-- Witness for C10: the precondition holds for `1.2.3` and for the
whitespace-padded ` 1.2.3` and both calls succeed; it fails for the
prefixed `TestModule/0.0.1` (int conversion) and for the short head
`66cf7c2` of an unreleased hash. -/
theorem claim_C10_totality_witness :
    (gnvPre "1.2.3" = true ∧
      ∃ t, get_next_version ⟨false, false, true, false⟩ "1.2.3" = Except.ok t) ∧
    (gnvPre " 1.2.3" = true ∧
      ∃ t, get_next_version ⟨false, false, true, false⟩ " 1.2.3" = Except.ok t) ∧
    (gnvPre "TestModule/0.0.1" = false ∧
      (get_next_version ⟨false, false, true, false⟩ "TestModule/0.0.1"
          = Except.error PyErr.valueError ∨
        get_next_version ⟨false, false, true, false⟩ "TestModule/0.0.1"
          = Except.error PyErr.indexError)) ∧
    (gnvPre "66cf7c2" = false ∧
      (get_next_version ⟨false, false, true, false⟩ "66cf7c2"
          = Except.error PyErr.valueError ∨
        get_next_version ⟨false, false, true, false⟩ "66cf7c2"
          = Except.error PyErr.indexError)) := by
  refine ⟨⟨by decide, ?_⟩, ⟨by decide, ?_⟩, ⟨by decide, ?_⟩, ⟨by decide, ?_⟩⟩
  · exact (claim_C10_totality ⟨false, false, true, false⟩ "1.2.3").1 (by decide)
  · exact (claim_C10_totality ⟨false, false, true, false⟩ " 1.2.3").1 (by decide)
  · exact (claim_C10_totality ⟨false, false, true, false⟩ "TestModule/0.0.1").2 (by decide)
  · exact (claim_C10_totality ⟨false, false, true, false⟩ "66cf7c2").2 (by decide)

/-! ## Claim C4 -/

/-- C4: for a calver patch bump whose date string has exactly two
dot-separated integer components `d1.d2` and whose version head int-parses
as `(a, b, c)`, `get_next_calver_version` returns `[d1, d2, c+1]` when
`(d1, d2) = (a, b)` and `[d1, d2, 0]` otherwise — always a three-element
`[date_part_1, date_part_2, patch]` list. -/
theorem claim_C4_calver_patch (args : Args) (now version : String)
    (n1 n2 : List Char) (d1 d2 a b c : Int) (rest : List (List Char))
    (hmj : args.major = false) (hmn : args.minor = false) (hpt : args.patch = true)
    (hnow : pySplit '.' (some 2) now.data = [n1, n2])
    (h1 : pyInt? n1 = some d1) (h2 : pyInt? n2 = some d2)
    (hver : int3 (pySplit '.' (some 3) (headSplit version)) = Except.ok (a, b, c, rest)) :
    get_next_calver_version args now version =
      (if d1 = a ∧ d2 = b
       then Except.ok [PyVal.int d1, PyVal.int d2, PyVal.int (c + 1)]
       else Except.ok [PyVal.int d1, PyVal.int d2, PyVal.int 0]) := by
  rw [get_next_calver_version, hnow, hver]
  simp only [int2, h1, h2, hmj, hmn, hpt]
  by_cases hd : d1 = a ∧ d2 = b
  · rw [if_pos hd]
    obtain ⟨hda, hdb⟩ := hd
    subst hda; subst hdb
    simp
  · rw [if_neg hd]
    have hne : ¬([PyVal.int d1, PyVal.int d2] = [PyVal.int a, PyVal.int b]) := by
      intro h
      simp only [List.cons.injEq, PyVal.int.injEq, and_true] at h
      exact hd ⟨h.1, h.2⟩
    simp [hne]

/-- Witness for C4: same calendar period increments the patch, a new period
resets it to zero. -/
theorem claim_C4_calver_patch_witness :
    get_next_calver_version ⟨false, false, true, true⟩ "202610.12" "202610.12.3"
      = Except.ok [PyVal.int 202610, PyVal.int 12, PyVal.int 4] ∧
    get_next_calver_version ⟨false, false, true, true⟩ "202610.12" "202609.30.7-2-gabc"
      = Except.ok [PyVal.int 202610, PyVal.int 12, PyVal.int 0] := by
  constructor
  · have h := claim_C4_calver_patch ⟨false, false, true, true⟩ "202610.12" "202610.12.3"
      "202610".data "12".data 202610 12 202610 12 3 []
      rfl rfl rfl rfl rfl rfl rfl
    rw [if_pos ⟨rfl, rfl⟩] at h
    exact h
  · have h := claim_C4_calver_patch ⟨false, false, true, true⟩ "202610.12" "202609.30.7-2-gabc"
      "202610".data "12".data 202610 12 202609 30 7 []
      rfl rfl rfl rfl rfl rfl rfl
    rw [if_neg (by intro hx; exact absurd hx.1 (by decide))] at h
    exact h

/-! ## Claim C7 -/

/-- C7 counterexample: a major calver bump on the version string `abc` does
not raise `VersionError` — the int conversion of the current version fails
first with `ValueError` (git.py int-ifies the version at lines 220-222
before the major/minor guard at line 225), so the claim's "for every
current version string" fails. -/
theorem claim_C7_counterexample :
    get_next_calver_version ⟨true, false, true, true⟩ "202610.12" "abc"
        = Except.error PyErr.valueError ∧
      (Except.error PyErr.valueError : Except PyErr (List PyVal))
        ≠ Except.error PyErr.versionError := by
  exact ⟨rfl, by simp⟩

/-- C7 (amended): when calendar versioning is active and both the formatted
date's first two components and the current version's numeric triple
int-parse, every major bump request and every minor bump request is
rejected with `VersionError` and no next version is computed. -/
theorem claim_C7_calver_guard (args : Args) (now version : String)
    (d1 d2 : Int) (calRest : List (List Char))
    (a b c : Int) (rest : List (List Char))
    (hnow : int2 (pySplit '.' (some 2) now.data) = Except.ok (d1, d2, calRest))
    (hver : int3 (pySplit '.' (some 3) (headSplit version)) = Except.ok (a, b, c, rest))
    (hmm : args.major = true ∨ args.minor = true) :
    get_next_calver_version args now version = Except.error PyErr.versionError := by
  rw [get_next_calver_version, hnow, hver]
  rcases hmm with h | h
  · simp [h]
  · cases hM : args.major <;> simp [h, hM]

/-- Witness for C7 (amended) at a major and a minor request. -/
theorem claim_C7_calver_guard_witness :
    get_next_calver_version ⟨true, false, true, true⟩ "202610.12" "1.2.3"
        = Except.error PyErr.versionError ∧
    get_next_calver_version ⟨false, true, true, true⟩ "202610.12" "1.2.3"
        = Except.error PyErr.versionError := by
  constructor
  · exact claim_C7_calver_guard ⟨true, false, true, true⟩ "202610.12" "1.2.3"
      202610 12 [] 1 2 3 [] rfl rfl (Or.inl rfl)
  · exact claim_C7_calver_guard ⟨false, true, true, true⟩ "202610.12" "1.2.3"
      202610 12 [] 1 2 3 [] rfl rfl (Or.inr rfl)

/-! ## Claim C5 -/

/-- C5 counterexample: `bump` does not fail on a version that carries
dash-delimited commit-distance metadata — `1.2.3-4-gdeadbee` is bumped
normally — while the metadata-free tag `1.2.3` is the one rejected with
`VersionError`; the claim has the direction of the guard inverted. -/
theorem claim_C5_counterexample :
    ('-' ∈ ("1.2.3-4-gdeadbee" : String).data ∧
      GitVersion.bump ⟨false, false, true, false⟩ "" (some "1.2.3-4-gdeadbee")
        = Except.ok [PyVal.int 1, PyVal.int 2, PyVal.int 4]) ∧
    ('-' ∉ ("1.2.3" : String).data ∧
      GitVersion.bump ⟨false, false, true, false⟩ "" (some "1.2.3")
        = Except.error PyErr.versionError) := by
  exact ⟨⟨by decide, rfl⟩, ⟨by decide, rfl⟩⟩

/-- C5 (amended): in non-calver mode, `bump` on a non-empty current version
fails with `VersionError` (the `already bumped` guard) exactly when the
version string contains no dash at all; a version carrying a dash-delimited
suffix is bumped normally by `get_next_version` on its head before the
first dash. -/
theorem claim_C5_already_bumped (args : Args) (now : String) (s : String)
    (hc : args.calver = false) (hs : s ≠ "") :
    (GitVersion.bump args now (some s) = Except.error PyErr.versionError ↔
      '-' ∉ s.data) ∧
    ('-' ∈ s.data →
      GitVersion.bump args now (some s) =
        get_next_version args (String.mk ((pySplit '-' none s.data).headD []))) := by
  have hredux : GitVersion.bump args now (some s) =
      (if (pySplit '-' none s.data).length = 1 then Except.error PyErr.versionError
       else get_next_version args (String.mk ((pySplit '-' none s.data).headD []))) := by
    rw [GitVersion.bump]
    simp only [if_neg hs, hc, Bool.false_eq_true, if_false]
  rw [hredux]
  constructor
  · constructor
    · intro h
      by_contra hmem
      have hlen : ¬(pySplit '-' none s.data).length = 1 := by
        rw [pySplit_none_length_one]
        simpa using hmem
      rw [if_neg hlen] at h
      exact get_next_version_ne_versionError args _ h
    · intro h
      rw [if_pos ((pySplit_none_length_one '-' s.data).mpr h)]
  · intro hmem
    have hlen : ¬(pySplit '-' none s.data).length = 1 := by
      rw [pySplit_none_length_one]
      simpa using hmem
    rw [if_neg hlen]

/-- Witness for C5 (amended): a dash-free tag is rejected, a dashed one is
bumped on its head. -/
theorem claim_C5_already_bumped_witness :
    GitVersion.bump ⟨false, false, true, false⟩ "" (some "7.8.9")
        = Except.error PyErr.versionError ∧
    GitVersion.bump ⟨false, false, true, false⟩ "" (some "1.2.3-4-gabc")
        = get_next_version ⟨false, false, true, false⟩
            (String.mk ((pySplit '-' none ("1.2.3-4-gabc" : String).data).headD [])) := by
  constructor
  · exact (claim_C5_already_bumped ⟨false, false, true, false⟩ "" "7.8.9" rfl
      (by decide)).1.mpr (by decide)
  · exact (claim_C5_already_bumped ⟨false, false, true, false⟩ "" "1.2.3-4-gabc" rfl
      (by decide)).2 (by decide)

/-! ## Claim C6 -/

/-- C6: bumping the unreleased version `66cf7c2-HEAD` (a commit hash plus
branch) fails, but with the int-conversion `ValueError` of
`int('66cf7c2')`, not with the `VersionError` the specification requires
(and which `GitVersion.run` alone catches). -/
theorem claim_C6_unreleased_bump :
    GitVersion.bump ⟨false, false, true, false⟩ "" (some "66cf7c2-HEAD")
        = Except.error PyErr.valueError ∧
      (Except.error PyErr.valueError : Except PyErr (List PyVal))
        ≠ Except.error PyErr.versionError := by
  exact ⟨rfl, by simp⟩

/-! ## Claim C9 -/

/-- C9: `is_calver` asks the date parser exactly about the first two
dot-separated components re-joined with a dot, so for dot-free components
`a` and `b` the result on `a.b.<anything>` equals the oracle's verdict on
`a.b`, as does the result on `a.b` itself — the third component and any
later text never affect the outcome. -/
theorem claim_C9_first_two_components (strptimeOk : String → String → Bool)
    (fmt : String) (a b rest : List Char) (ha : '.' ∉ a) (hb : '.' ∉ b) :
    (is_calver strptimeOk (String.mk (a ++ '.' :: (b ++ '.' :: rest))) fmt =
      strptimeOk (String.mk (a ++ '.' :: b)) fmt) ∧
    (is_calver strptimeOk (String.mk (a ++ '.' :: b)) fmt =
      strptimeOk (String.mk (a ++ '.' :: b)) fmt) := by
  constructor
  · rw [is_calver]
    have hsplit : pySplit '.' (some 2) (String.mk (a ++ '.' :: (b ++ '.' :: rest))).data
        = a :: b :: pySplit '.' (some 0) rest := by
      show pySplit '.' (some 2) (a ++ '.' :: (b ++ '.' :: rest)) = _
      rw [pySplit_cons_sep '.' 1 a (b ++ '.' :: rest) ha]
      rw [pySplit_cons_sep '.' 0 b rest hb]
    rw [hsplit]
    have hjoin : joinDot ((a :: b :: pySplit '.' (some 0) rest).take 2)
        = a ++ '.' :: b := by
      simp [joinDot]
    rw [hjoin]
  · rw [is_calver]
    have hsplit : pySplit '.' (some 2) (String.mk (a ++ '.' :: b)).data
        = a :: [b] := by
      show pySplit '.' (some 2) (a ++ '.' :: b) = _
      rw [pySplit_cons_sep '.' 1 a b ha, pySplit_no_sep '.' (some 1) b hb]
    rw [hsplit]
    have hjoin : joinDot ((a :: [b]).take 2) = a ++ '.' :: b := by
      simp [joinDot]
    rw [hjoin]

/-- Witness for C9: the spec's example `202309.15.1` — the trailing `.1`
does not affect the outcome, which is the oracle's verdict on `202309.15`. -/
theorem claim_C9_first_two_components_witness :
    is_calver (fun d _ => d == "202309.15") "202309.15.1" "%Y%m.%d" =
      ((fun (d : String) (_ : String) => d == "202309.15") "202309.15" "%Y%m.%d") := by
  have h := (claim_C9_first_two_components (fun d _ => d == "202309.15") "%Y%m.%d"
    ("202309" : String).data ("15" : String).data ("1" : String).data
    (by decide) (by decide)).1
  exact h

/-! ## Decimal numeral lemmas -/

theorem isDig_digChar (d : Nat) : isDig (digChar d) = true := by
  unfold digChar
  split <;> rfl

theorem digVal_digChar (d : Nat) (hd : d < 10) : digVal (digChar d) = d := by
  interval_cases d <;> rfl

theorem digitsVal_append (xs : List Char) (c : Char) :
    digitsVal (xs ++ [c]) = 10 * digitsVal xs + digVal c := by
  rw [digitsVal, digitsVal, List.foldl_append]
  rfl

theorem digitsVal_natDigitsAux (fuel : Nat) :
    ∀ n : Nat, n ≤ fuel → digitsVal (natDigitsAux fuel n) = n := by
  induction fuel with
  | zero =>
    intro n hn
    interval_cases n
    rfl
  | succ f ih =>
    intro n hn
    rw [natDigitsAux]
    by_cases hz : n = 0
    · subst hz
      rfl
    · rw [if_neg hz, digitsVal_append]
      have hdiv : n / 10 ≤ f := by
        have := Nat.div_lt_self (Nat.pos_of_ne_zero hz) (by norm_num : (1 : Nat) < 10)
        omega
      rw [ih (n / 10) hdiv, digVal_digChar (n % 10) (Nat.mod_lt _ (by norm_num))]
      omega

/-- Parsing the canonical decimal numeral gives the number back. -/
theorem digitsVal_natDigits (n : Nat) : digitsVal (natDigits n) = n := by
  rw [natDigits]
  by_cases hz : n = 0
  · subst hz; rfl
  · rw [if_neg hz]
    exact digitsVal_natDigitsAux (n + 1) n (by omega)

theorem natDigitsAux_all_isDig (fuel : Nat) :
    ∀ n : Nat, (natDigitsAux fuel n).all isDig = true := by
  induction fuel with
  | zero => intro n; rfl
  | succ f ih =>
    intro n
    rw [natDigitsAux]
    by_cases hz : n = 0
    · rw [if_pos hz]; rfl
    · rw [if_neg hz, List.all_append, ih (n / 10)]
      simp [isDig_digChar]

theorem natDigits_all_isDig (n : Nat) : (natDigits n).all isDig = true := by
  rw [natDigits]
  by_cases hz : n = 0
  · rw [if_pos hz]; rfl
  · rw [if_neg hz]; exact natDigitsAux_all_isDig (n + 1) n

theorem natDigits_ne_nil (n : Nat) : natDigits n ≠ [] := by
  rw [natDigits]
  by_cases hz : n = 0
  · rw [if_pos hz]; simp
  · rw [if_neg hz, natDigitsAux, if_neg hz]
    simp

/-! ## Claim C3 -/

/-- C3: with a numeric triple present, a prerelease-only bump sets
`prerelease` to `rc1` when there is no `rc` suffix, and turns `rc<N>` into
`rc<N+1>` for every natural `N`. -/
theorem claim_C3_prerelease_cycle (v : Version) (M m p : Nat)
    (hM : v.major = some M) (hm : v.minor = some m) (hp : v.patch = some p) :
    (v.is_rc = false →
      (v.bump false false false true).map Version.prerelease = Except.ok (some "rc1")) ∧
    (∀ N : Nat, v.prerelease = some (String.mk ('r' :: 'c' :: natDigits N)) →
      (v.bump false false false true).map Version.prerelease
        = Except.ok (some (String.mk ('r' :: 'c' :: natDigits (N + 1))))) := by
  constructor
  · intro hrc
    rw [Version.bump, hM, hm, hp]
    cases hpre : v.prerelease with
    | none => simp [Except.map]
    | some pre =>
      rw [Version.is_rc, hpre] at hrc
      cases hrd : rcDigits? pre with
      | none => simp [hrd, Except.map]
      | some ds => simp [hrd] at hrc
  · intro N hpre
    rw [Version.bump, hM, hm, hp, hpre]
    have hrd : rcDigits? (String.mk ('r' :: 'c' :: natDigits N)) = some (natDigits N) := by
      simp [rcDigits?, natDigits_ne_nil, natDigits_all_isDig]
    simp [hrd, digitsVal_natDigits, Except.map]

/-- Witness for C3: `0.0.1` gains `rc1` (rendering as `0.0.1rc1`), and
`0.0.1rc1` advances to `rc2`. -/
theorem claim_C3_prerelease_cycle_witness :
    ((parseVersion "0.0.1").bump false false false true).map Version.prerelease
        = Except.ok (some "rc1") ∧
    ((parseVersion "0.0.1").bump false false false true).map Version.render
        = Except.ok "0.0.1rc1" ∧
    ((parseVersion "0.0.1rc1").bump false false false true).map Version.prerelease
        = Except.ok (some (String.mk ('r' :: 'c' :: natDigits 2))) := by
  refine ⟨?_, rfl, ?_⟩
  · exact (claim_C3_prerelease_cycle (parseVersion "0.0.1") 0 0 1 rfl rfl rfl).1 rfl
  · exact (claim_C3_prerelease_cycle (parseVersion "0.0.1rc1") 0 0 1 rfl rfl rfl).2 1 rfl

/-! ## Parse/render lemmas for the Version model -/

theorem not_mem_of_all_isDig (ch : Char) (hch : isDig ch = false)
    (a : List Char) (ha : a.all isDig = true) : ch ∉ a := by
  intro hm
  have := List.all_eq_true.mp ha ch hm
  rw [hch] at this
  exact absurd this (by simp)

theorem takeWhile_isDig_append (a r : List Char) (ha : a.all isDig = true)
    (hr : ∀ ch, r.head? = some ch → isDig ch = false) :
    (a ++ r).takeWhile isDig = a := by
  induction a with
  | nil =>
    cases r with
    | nil => rfl
    | cons ch r' => simp [List.takeWhile_cons, hr ch rfl]
  | cons x xs ih =>
    rw [List.all_cons, Bool.and_eq_true] at ha
    rw [List.cons_append, List.takeWhile_cons, if_pos ha.1, ih ha.2]

theorem dropWhile_isDig_append (a r : List Char) (ha : a.all isDig = true)
    (hr : ∀ ch, r.head? = some ch → isDig ch = false) :
    (a ++ r).dropWhile isDig = r := by
  induction a with
  | nil =>
    cases r with
    | nil => rfl
    | cons ch r' => simp [List.dropWhile_cons, hr ch rfl]
  | cons x xs ih =>
    rw [List.all_cons, Bool.and_eq_true] at ha
    rw [List.cons_append, List.dropWhile_cons, if_pos ha.1, ih ha.2]

theorem takeDigits_eq (a r : List Char) (ha : a.all isDig = true)
    (hr : ∀ ch, r.head? = some ch → isDig ch = false) :
    takeDigits (a ++ r) = (a, r) := by
  rw [takeDigits, takeWhile_isDig_append a r ha hr, dropWhile_isDig_append a r ha hr]

theorem splitLastSlash_none (cs : List Char) (h : '/' ∉ cs) :
    splitLastSlash cs = none := by
  induction cs with
  | nil => rfl
  | cons x xs ih =>
    rw [splitLastSlash, ih (fun hm => h (List.mem_cons_of_mem _ hm))]
    exact if_neg (fun (hx : x = '/') => h (hx ▸ List.mem_cons_self x xs))

theorem splitLastSlash_append (p r : List Char) (h : '/' ∉ r) :
    splitLastSlash (p ++ '/' :: r) = some (p ++ ['/'], r) := by
  induction p with
  | nil =>
    rw [List.nil_append, splitLastSlash, splitLastSlash_none r h, if_pos rfl]
    rfl
  | cons x xs ih =>
    rw [List.cons_append, splitLastSlash, ih]
    simp

theorem parseTriple_canonical (a b c suffix : List Char)
    (haN : a ≠ []) (haD : a.all isDig = true)
    (hbN : b ≠ []) (hbD : b.all isDig = true)
    (hcN : c ≠ []) (hcD : c.all isDig = true)
    (hsuf : ∀ ch, suffix.head? = some ch → isDig ch = false) :
    parseTriple (a ++ '.' :: (b ++ '.' :: (c ++ suffix))) = some (a, b, c, suffix) := by
  have hdot : ∀ (t : List Char) ch, ('.' :: t).head? = some ch → isDig ch = false := by
    intro t ch hh
    rw [List.head?_cons, Option.some.injEq] at hh
    subst hh
    rfl
  simp [parseTriple,
    takeDigits_eq a ('.' :: (b ++ '.' :: (c ++ suffix))) haD (hdot _),
    takeDigits_eq b ('.' :: (c ++ suffix)) hbD (hdot _),
    takeDigits_eq c suffix hcD hsuf, haN, hbN, hcN]

theorem parseCore_canonical (p? : Option String) (a b c suffix : List Char)
    (haN : a ≠ []) (haD : a.all isDig = true)
    (hbN : b ≠ []) (hbD : b.all isDig = true)
    (hcN : c ≠ []) (hcD : c.all isDig = true)
    (hsuf : ∀ ch, suffix.head? = some ch → isDig ch = false)
    (dash pre : Option String)
    (hclass : classifySuffix suffix = some (dash, pre)) :
    parseCore p? (a ++ '.' :: (b ++ '.' :: (c ++ suffix)))
      = some { pfx := p?, major := some (digitsVal a), minor := some (digitsVal b),
               patch := some (digitsVal c), prereleasedash := dash, prerelease := pre } := by
  rw [parseCore, parseTriple_canonical a b c suffix haN haD hbN hbD hcN hcD hsuf]
  simp [hclass]

theorem parseCore_major_isSome (p? : Option String) (rest : List Char) (v : Version)
    (h : parseCore p? rest = some v) : v.major.isSome = true := by
  rw [parseCore] at h
  cases hpt : parseTriple rest with
  | none => rw [hpt] at h; exact absurd h (by simp)
  | some t =>
    obtain ⟨a, b, c, suffix⟩ := t
    cases hcl : classifySuffix suffix with
    | none => simp [hpt, hcl] at h
    | some dp =>
      obtain ⟨dash, pre⟩ := dp
      simp [hpt, hcl] at h
      rw [← h]
      rfl

theorem render_triple (p? dash pre : Option String) (M m p : Nat) :
    Version.render { pfx := p?, major := some M, minor := some m, patch := some p, prereleasedash := dash, prerelease := pre }
      = String.mk ((p?.getD "").data ++ (natDigits M ++ '.' :: (natDigits m
          ++ '.' :: (natDigits p ++ ((dash.getD "").data ++ (pre.getD "").data))))) := by
  rw [Version.render]
  apply congrArg String.mk
  simp [List.append_assoc]

/-! ## Claim C2 -/

/-- C2: parsing a well-formed version string with a dotted numeric triple
and rendering it back reproduces the string byte for byte, prefix,
prerelease separator and prerelease text included; and rendering the parse
of any string that came out unreleased returns the raw string verbatim. -/
theorem claim_C2_roundtrip (s : String) :
    (WellFormed s → (parseVersion s).render = s) ∧
    ((parseVersion s).is_unreleased = true → (parseVersion s).render = s) := by
  constructor
  · rintro ⟨pfx, a, b, c, suffix, hdecomp, hpfx, hca, hcb, hcc, hsuf⟩
    obtain ⟨sd⟩ := s
    have hsd : sd = pfx ++ (a ++ '.' :: (b ++ '.' :: (c ++ suffix))) := hdecomp
    subst hsd
    have haD : a.all isDig = true := by rw [← hca]; exact natDigits_all_isDig _
    have haN : a ≠ [] := by rw [← hca]; exact natDigits_ne_nil _
    have hbD : b.all isDig = true := by rw [← hcb]; exact natDigits_all_isDig _
    have hbN : b ≠ [] := by rw [← hcb]; exact natDigits_ne_nil _
    have hcD : c.all isDig = true := by rw [← hcc]; exact natDigits_all_isDig _
    have hcN : c ≠ [] := by rw [← hcc]; exact natDigits_ne_nil _
    have hsufHead : ∀ ch, suffix.head? = some ch → isDig ch = false := by
      rcases hsuf with h0 | ⟨r, hr, _⟩ | ⟨ds, hds, _, _⟩
      · subst h0; intro ch hh; exact absurd hh (by simp)
      · subst hr; intro ch hh
        rw [List.head?_cons, Option.some.injEq] at hh
        subst hh; rfl
      · subst hds; intro ch hh
        rw [List.head?_cons, Option.some.injEq] at hh
        subst hh; rfl
    have hsufSlash : '/' ∉ suffix := by
      rcases hsuf with h0 | ⟨r, hr, hrs⟩ | ⟨ds, hds, _, hdsD⟩
      · subst h0; simp
      · subst hr
        intro hm
        rcases List.mem_cons.mp hm with h1 | h1
        · exact absurd h1 (by decide)
        · exact hrs h1
      · subst hds
        intro hm
        rcases List.mem_cons.mp hm with h1 | h1
        · exact absurd h1 (by decide)
        rcases List.mem_cons.mp h1 with h2 | h2
        · exact absurd h2 (by decide)
        · exact not_mem_of_all_isDig '/' rfl ds hdsD h2
    have hnoSlash : '/' ∉ a ++ '.' :: (b ++ '.' :: (c ++ suffix)) := by
      intro hm
      simp only [List.mem_append, List.mem_cons] at hm
      rcases hm with h1 | h1 | h1 | h1 | h1 | h1
      · exact not_mem_of_all_isDig '/' rfl a haD h1
      · exact absurd h1 (by decide)
      · exact not_mem_of_all_isDig '/' rfl b hbD h1
      · exact absurd h1 (by decide)
      · exact not_mem_of_all_isDig '/' rfl c hcD h1
      · exact hsufSlash h1
    have hclass : ∃ dash pre, classifySuffix suffix = some (dash, pre) ∧
        (dash.getD "").data ++ (pre.getD "").data = suffix := by
      rcases hsuf with h0 | ⟨r, hr, _⟩ | ⟨ds, hds, hdsN, hdsD⟩
      · subst h0; exact ⟨none, none, rfl, rfl⟩
      · subst hr
        exact ⟨some "-", some (String.mk r), by simp [classifySuffix], rfl⟩
      · subst hds
        refine ⟨some "", some (String.mk ('r' :: 'c' :: ds)), ?_, rfl⟩
        simp [classifySuffix, hdsN, hdsD]
    obtain ⟨dash, pre, hclassEq, hdp⟩ := hclass
    rcases hpfx with hpe | ⟨p, hp⟩
    · subst hpe
      rw [List.nil_append]
      rw [parseVersion]
      rw [splitLastSlash_none _ hnoSlash]
      simp only []
      rw [parseCore_canonical none a b c suffix haN haD hbN hbD hcN hcD hsufHead
        dash pre hclassEq]
      rw [Option.getD_some, render_triple, hca, hcb, hcc]
      apply congrArg String.mk
      have hempty : ((none : Option String).getD "").data = [] := rfl
      rw [hempty, List.nil_append, hdp]
    · subst hp
      have hassoc : (p ++ ['/']) ++ (a ++ '.' :: (b ++ '.' :: (c ++ suffix)))
          = p ++ '/' :: (a ++ '.' :: (b ++ '.' :: (c ++ suffix))) := by simp
      rw [hassoc, parseVersion]
      rw [splitLastSlash_append p _ hnoSlash]
      simp only []
      rw [parseCore_canonical (some (String.mk (p ++ ['/']))) a b c suffix
        haN haD hbN hbD hcN hcD hsufHead dash pre hclassEq]
      rw [Option.getD_some, render_triple, hca, hcb, hcc]
      apply congrArg String.mk
      rw [hdp]
      simp [List.append_assoc]
  · intro hunrel
    rcases hsl : splitLastSlash s.data with _ | ⟨p, rest⟩
    · cases hpc : parseCore none s.data with
      | some v =>
        have hpv : parseVersion s = v := by
          rw [parseVersion, hsl]
          simp [hpc]
        rw [hpv] at hunrel
        have hM := parseCore_major_isSome none s.data v hpc
        have hmajn : v.major = none := by
          rw [Version.is_unreleased] at hunrel
          simp only [Bool.and_eq_true, Option.isNone_iff_eq_none] at hunrel
          exact hunrel.1.1
        rw [hmajn] at hM
        exact absurd hM (by simp)
      | none =>
        have hpv : parseVersion s = unreleasedVersion s := by
          rw [parseVersion, hsl]
          simp [hpc]
        rw [hpv]
        rfl
    · cases hpc : parseCore (some (String.mk p)) rest with
      | some v =>
        have hpv : parseVersion s = v := by
          rw [parseVersion, hsl]
          simp [hpc]
        rw [hpv] at hunrel
        have hM := parseCore_major_isSome _ rest v hpc
        have hmajn : v.major = none := by
          rw [Version.is_unreleased] at hunrel
          simp only [Bool.and_eq_true, Option.isNone_iff_eq_none] at hunrel
          exact hunrel.1.1
        rw [hmajn] at hM
        exact absurd hM (by simp)
      | none =>
        have hpv : parseVersion s = unreleasedVersion s := by
          rw [parseVersion, hsl]
          simp [hpc]
        rw [hpv]
        rfl

/-- Witness for C2: the prefixed tag `TestModule/0.0.1`, the glued rc tag
`0.0.1rc16`, and the dashed git-describe tag `0.1.2-16-g5befeb2` round-trip
through parse and render; the unreleased `66cf7c2-HEAD` renders verbatim. -/
theorem claim_C2_roundtrip_witness :
    (parseVersion "TestModule/0.0.1").render = "TestModule/0.0.1" ∧
    (parseVersion "0.0.1rc16").render = "0.0.1rc16" ∧
    (parseVersion "0.1.2-16-g5befeb2").render = "0.1.2-16-g5befeb2" ∧
    (parseVersion "66cf7c2-HEAD").render = "66cf7c2-HEAD" := by
  refine ⟨?_, ?_, ?_, ?_⟩
  · exact (claim_C2_roundtrip "TestModule/0.0.1").1
      ⟨"TestModule/".data, ['0'], ['0'], ['1'], [], by decide,
        Or.inr ⟨"TestModule".data, by decide⟩, rfl, rfl, rfl, Or.inl rfl⟩
  · exact (claim_C2_roundtrip "0.0.1rc16").1
      ⟨[], ['0'], ['0'], ['1'], ['r', 'c', '1', '6'], by decide,
        Or.inl rfl, rfl, rfl, rfl, Or.inr (Or.inr ⟨['1', '6'], rfl, by decide, by decide⟩)⟩
  · exact (claim_C2_roundtrip "0.1.2-16-g5befeb2").1
      ⟨[], ['0'], ['1'], ['2'], '-' :: "16-g5befeb2".data, by decide,
        Or.inl rfl, rfl, rfl, rfl, Or.inr (Or.inl ⟨"16-g5befeb2".data, rfl, by decide⟩)⟩
  · exact (claim_C2_roundtrip "66cf7c2-HEAD").2 rfl

/-! ## Soundness and completeness of the regex evaluator -/

theorem matches_sound (fuel : Nat) :
    ∀ (re : RE) (cs r : List Char), r ∈ reMatch fuel re cs → Matches re cs r := by
  induction fuel with
  | zero => intro re cs r h; exact absurd h (by simp [reMatch])
  | succ f ih =>
    intro re cs r h
    cases re with
    | cls p =>
      cases cs with
      | nil => exact absurd h (by simp [reMatch])
      | cons c rest =>
        rw [reMatch] at h
        by_cases hp : p c = true
        · rw [if_pos hp] at h
          rw [List.mem_singleton] at h
          subst h
          exact Matches.cls hp
        · rw [if_neg hp] at h
          exact absurd h (by simp)
    | eps =>
      rw [reMatch, List.mem_singleton] at h
      subst h
      exact Matches.eps
    | seq a b =>
      rw [reMatch, List.mem_flatMap] at h
      obtain ⟨m, hm, hr⟩ := h
      exact Matches.seq (ih a cs m hm) (ih b m r hr)
    | alt a b =>
      rw [reMatch, List.mem_append] at h
      rcases h with h | h
      · exact Matches.altL (ih a cs r h)
      · exact Matches.altR (ih b cs r h)
    | look a =>
      rw [reMatch] at h
      by_cases he : (reMatch f a cs).isEmpty
      · rw [if_pos he] at h
        exact absurd h (by simp)
      · rw [if_neg he] at h
        rw [List.mem_singleton] at h
        subst h
        have hne : reMatch f a r ≠ [] := by
          intro hnil
          rw [hnil] at he
          exact he rfl
        obtain ⟨r', hr'⟩ := List.exists_mem_of_ne_nil (reMatch f a r) hne
        exact Matches.look (ih a r r' hr')
    | star a =>
      rw [reMatch, List.mem_append] at h
      rcases h with h | h
      · rw [List.mem_flatMap] at h
        obtain ⟨m, hm, hr⟩ := h
        rw [List.mem_filter] at hm
        have hlt : m.length < cs.length := by
          have := hm.2
          simpa using this
        exact Matches.starC (ih a cs m hm.1) hlt (ih (RE.star a) m r hr)
      · rw [List.mem_singleton] at h
        subst h
        exact Matches.starN

theorem matches_append {re : RE} {cs r : List Char} (h : Matches re cs r) :
    ∃ w, cs = w ++ r := by
  induction h with
  | cls _ => exact ⟨[_], rfl⟩
  | eps => exact ⟨[], rfl⟩
  | seq h1 h2 ih1 ih2 =>
    obtain ⟨w1, e1⟩ := ih1
    obtain ⟨w2, e2⟩ := ih2
    exact ⟨w1 ++ w2, by rw [e1, e2, List.append_assoc]⟩
  | altL h ih => exact ih
  | altR h ih => exact ih
  | look h ih => exact ⟨[], rfl⟩
  | starN => exact ⟨[], rfl⟩
  | starC h1 hlt h2 ih1 ih2 =>
    obtain ⟨w1, e1⟩ := ih1
    obtain ⟨w2, e2⟩ := ih2
    exact ⟨w1 ++ w2, by rw [e1, e2, List.append_assoc]⟩

theorem matches_length_le {re : RE} {cs r : List Char} (h : Matches re cs r) :
    r.length ≤ cs.length := by
  obtain ⟨w, e⟩ := matches_append h
  subst e
  simp

theorem matches_complete {re : RE} {cs r : List Char} (h : Matches re cs r) :
    ∀ fuel, (re.size + 1) * (cs.length + 1) ≤ fuel → r ∈ reMatch fuel re cs := by
  induction h with
  | @cls p c r hp =>
    intro fuel hf
    have h1 : 1 ≤ fuel := le_trans (Nat.one_le_iff_ne_zero.mpr (by positivity)) hf
    obtain ⟨f, rfl⟩ : ∃ f, fuel = f + 1 := ⟨fuel - 1, by omega⟩
    rw [reMatch, if_pos hp]
    exact List.mem_singleton.mpr rfl
  | @eps cs =>
    intro fuel hf
    have h1 : 1 ≤ fuel := le_trans (Nat.one_le_iff_ne_zero.mpr (by positivity)) hf
    obtain ⟨f, rfl⟩ : ∃ f, fuel = f + 1 := ⟨fuel - 1, by omega⟩
    rw [reMatch]
    exact List.mem_singleton.mpr rfl
  | @seq a b cs m r h1 h2 ih1 ih2 =>
    intro fuel hf
    have hone : 1 ≤ fuel := le_trans (Nat.one_le_iff_ne_zero.mpr (by positivity)) hf
    obtain ⟨f, rfl⟩ : ∃ f, fuel = f + 1 := ⟨fuel - 1, by omega⟩
    rw [RE.size] at hf
    have hsplit : (a.size + b.size + 1 + 1) * (cs.length + 1)
        = (a.size + 1) * (cs.length + 1) + (b.size + 1) * (cs.length + 1) := by ring
    rw [hsplit] at hf
    have hp1 : 1 ≤ (a.size + 1) * (cs.length + 1) :=
      Nat.one_le_iff_ne_zero.mpr (by positivity)
    have hp2 : 1 ≤ (b.size + 1) * (cs.length + 1) :=
      Nat.one_le_iff_ne_zero.mpr (by positivity)
    have hml : m.length ≤ cs.length := matches_length_le h1
    have hk : (b.size + 1) * (m.length + 1) ≤ (b.size + 1) * (cs.length + 1) :=
      Nat.mul_le_mul_left _ (by omega)
    rw [reMatch, List.mem_flatMap]
    exact ⟨m, ih1 f (by omega), ih2 f (by omega)⟩
  | @altL a b cs r h ih =>
    intro fuel hf
    have hone : 1 ≤ fuel := le_trans (Nat.one_le_iff_ne_zero.mpr (by positivity)) hf
    obtain ⟨f, rfl⟩ : ∃ f, fuel = f + 1 := ⟨fuel - 1, by omega⟩
    rw [RE.size] at hf
    have hsplit : (a.size + b.size + 1 + 1) * (cs.length + 1)
        = (a.size + 1) * (cs.length + 1) + (b.size + 1) * (cs.length + 1) := by ring
    rw [hsplit] at hf
    have hp2 : 1 ≤ (b.size + 1) * (cs.length + 1) :=
      Nat.one_le_iff_ne_zero.mpr (by positivity)
    rw [reMatch, List.mem_append]
    exact Or.inl (ih f (by omega))
  | @altR a b cs r h ih =>
    intro fuel hf
    have hone : 1 ≤ fuel := le_trans (Nat.one_le_iff_ne_zero.mpr (by positivity)) hf
    obtain ⟨f, rfl⟩ : ∃ f, fuel = f + 1 := ⟨fuel - 1, by omega⟩
    rw [RE.size] at hf
    have hsplit : (a.size + b.size + 1 + 1) * (cs.length + 1)
        = (a.size + 1) * (cs.length + 1) + (b.size + 1) * (cs.length + 1) := by ring
    rw [hsplit] at hf
    have hp1 : 1 ≤ (a.size + 1) * (cs.length + 1) :=
      Nat.one_le_iff_ne_zero.mpr (by positivity)
    rw [reMatch, List.mem_append]
    exact Or.inr (ih f (by omega))
  | @look a cs r h ih =>
    intro fuel hf
    have hone : 1 ≤ fuel := le_trans (Nat.one_le_iff_ne_zero.mpr (by positivity)) hf
    obtain ⟨f, rfl⟩ : ∃ f, fuel = f + 1 := ⟨fuel - 1, by omega⟩
    rw [RE.size] at hf
    have hsplit : (a.size + 1 + 1) * (cs.length + 1)
        = (a.size + 1) * (cs.length + 1) + (cs.length + 1) := by ring
    rw [hsplit] at hf
    have hmem : r ∈ reMatch f a cs := ih f (by omega)
    have hne : ¬(reMatch f a cs).isEmpty = true := by
      intro he
      rw [List.isEmpty_iff] at he
      rw [he] at hmem
      exact absurd hmem (by simp)
    rw [reMatch, if_neg hne]
    exact List.mem_singleton.mpr rfl
  | @starN a cs =>
    intro fuel hf
    have hone : 1 ≤ fuel := le_trans (Nat.one_le_iff_ne_zero.mpr (by positivity)) hf
    obtain ⟨f, rfl⟩ : ∃ f, fuel = f + 1 := ⟨fuel - 1, by omega⟩
    rw [reMatch, List.mem_append]
    exact Or.inr (List.mem_singleton.mpr rfl)
  | @starC a cs m r h1 hlt h2 ih1 ih2 =>
    intro fuel hf
    have hone : 1 ≤ fuel := le_trans (Nat.one_le_iff_ne_zero.mpr (by positivity)) hf
    obtain ⟨f, rfl⟩ : ∃ f, fuel = f + 1 := ⟨fuel - 1, by omega⟩
    rw [RE.size] at hf
    have hsplit : (a.size + 1 + 1) * (cs.length + 1)
        = (a.size + 1) * (cs.length + 1) + (cs.length + 1) := by ring
    rw [hsplit] at hf
    have hsub : (a.size + 1 + 1) * (m.length + 1) + (a.size + 1 + 1)
        ≤ (a.size + 1 + 1) * (cs.length + 1) := by
      have : (a.size + 1 + 1) * (m.length + 1) + (a.size + 1 + 1)
          = (a.size + 1 + 1) * (m.length + 2) := by ring
      rw [this]
      exact Nat.mul_le_mul_left _ (by omega)
    rw [hsplit] at hsub
    rw [reMatch, List.mem_append]
    left
    rw [List.mem_flatMap]
    refine ⟨m, ?_, ?_⟩
    · rw [List.mem_filter]
      exact ⟨ih1 f (by omega), by simpa using hlt⟩
    · have hb : (RE.size (RE.star a) + 1) * (m.length + 1) ≤ f := by
        rw [RE.size]
        omega
      exact ih2 f hb

/-- The fuel used by `is_semver` is always sufficient. -/
theorem is_semver_iff (s : String) :
    is_semver s = true ↔ ∃ r, Matches semverRE s.data r ∧ dollarOk r = true := by
  rw [is_semver]
  constructor
  · intro h
    rw [List.any_eq_true] at h
    obtain ⟨r, hr, hd⟩ := h
    exact ⟨r, matches_sound _ _ _ _ hr, hd⟩
  · rintro ⟨r, hm, hd⟩
    rw [List.any_eq_true]
    exact ⟨r, matches_complete hm (semverFuel s.data) (le_of_eq rfl), hd⟩

/-! ## Component characterizations of the SEMVER_RE pieces -/

theorem matches_cls_iff (p : Char → Bool) (cs r : List Char) :
    Matches (RE.cls p) cs r ↔ ∃ c, p c = true ∧ cs = c :: r := by
  constructor
  · intro h
    cases h with
    | cls hp => exact ⟨_, hp, rfl⟩
  · rintro ⟨c, hp, rfl⟩
    exact Matches.cls hp

theorem matches_eps_iff (cs r : List Char) : Matches RE.eps cs r ↔ r = cs := by
  constructor
  · intro h
    cases h with
    | eps => rfl
  · rintro rfl
    exact Matches.eps

theorem matches_seq_iff (a b : RE) (cs r : List Char) :
    Matches (RE.seq a b) cs r ↔ ∃ m, Matches a cs m ∧ Matches b m r := by
  constructor
  · intro h
    cases h with
    | seq h1 h2 => exact ⟨_, h1, h2⟩
  · rintro ⟨m, h1, h2⟩
    exact Matches.seq h1 h2

theorem matches_alt_iff (a b : RE) (cs r : List Char) :
    Matches (RE.alt a b) cs r ↔ Matches a cs r ∨ Matches b cs r := by
  constructor
  · intro h
    cases h with
    | altL h => exact Or.inl h
    | altR h => exact Or.inr h
  · rintro (h | h)
    · exact Matches.altL h
    · exact Matches.altR h

theorem matches_look_iff (a : RE) (cs r : List Char) :
    Matches (RE.look a) cs r ↔ r = cs ∧ ∃ r', Matches a cs r' := by
  constructor
  · intro h
    cases h with
    | look h => exact ⟨rfl, _, h⟩
  · rintro ⟨rfl, r', h⟩
    exact Matches.look h

theorem matches_starCls_of_all (p : Char → Bool) (w t : List Char)
    (hall : w.all p = true) : Matches (RE.star (RE.cls p)) (w ++ t) t := by
  induction w with
  | nil => exact Matches.starN
  | cons c w' ih =>
    rw [List.all_cons, Bool.and_eq_true] at hall
    exact Matches.starC (Matches.cls hall.1) (by simp) (ih hall.2)

theorem matches_starCls_inv (p : Char → Bool) :
    ∀ re cs r, Matches re cs r → re = RE.star (RE.cls p) →
      ∃ w, cs = w ++ r ∧ w.all p = true := by
  intro re cs r h
  induction h with
  | cls _ => intro hre; exact RE.noConfusion hre
  | eps => intro hre; exact RE.noConfusion hre
  | seq _ _ _ _ => intro hre; exact RE.noConfusion hre
  | altL _ _ => intro hre; exact RE.noConfusion hre
  | altR _ _ => intro hre; exact RE.noConfusion hre
  | look _ _ => intro hre; exact RE.noConfusion hre
  | starN => intro _; exact ⟨[], rfl, rfl⟩
  | @starC a cs m r h1 hlt h2 ih1 ih2 =>
    intro hre
    injection hre with ha
    subst ha
    obtain ⟨w, hw, hall⟩ := ih2 rfl
    cases h1 with
    | cls hp =>
      subst hw
      exact ⟨_ :: w, rfl, by simp [hp, hall]⟩

theorem matches_starCls_iff (p : Char → Bool) (cs r : List Char) :
    Matches (RE.star (RE.cls p)) cs r ↔ ∃ w, cs = w ++ r ∧ w.all p = true := by
  constructor
  · intro h
    exact matches_starCls_inv p _ cs r h rfl
  · rintro ⟨w, rfl, hall⟩
    exact matches_starCls_of_all p w r hall

theorem matches_plusCls_of_all (p : Char → Bool) (w t : List Char)
    (hne : w ≠ []) (hall : w.all p = true) :
    Matches (RE.plus (RE.cls p)) (w ++ t) t := by
  cases w with
  | nil => exact absurd rfl hne
  | cons c w' =>
    rw [List.all_cons, Bool.and_eq_true] at hall
    exact Matches.seq (Matches.cls hall.1) (matches_starCls_of_all p w' t hall.2)

theorem matches_plusCls_iff (p : Char → Bool) (cs r : List Char) :
    Matches (RE.plus (RE.cls p)) cs r ↔
      ∃ w, w ≠ [] ∧ w.all p = true ∧ cs = w ++ r := by
  constructor
  · intro h
    rw [RE.plus, matches_seq_iff] at h
    obtain ⟨m, h1, h2⟩ := h
    rw [matches_cls_iff] at h1
    obtain ⟨c, hp, rfl⟩ := h1
    rw [matches_starCls_iff] at h2
    obtain ⟨w, rfl, hall⟩ := h2
    exact ⟨c :: w, by simp, by simp [hp, hall], rfl⟩
  · rintro ⟨w, hne, hall, rfl⟩
    exact matches_plusCls_of_all p w r hne hall

/-- The words matched by `numRE`: `0` or a non-zero-leading digit string. -/
def NumTok (w : List Char) : Prop :=
  w = ['0'] ∨ ∃ d t, w = d :: t ∧ isNzDig d = true ∧ t.all isDig = true

theorem matches_numRE_iff (cs r : List Char) :
    Matches numRE cs r ↔ ∃ w, cs = w ++ r ∧ NumTok w := by
  rw [numRE, matches_alt_iff]
  constructor
  · rintro (h | h)
    · rw [matches_cls_iff] at h
      obtain ⟨c, hc, rfl⟩ := h
      have hc0 : c = '0' := by simpa using hc
      subst hc0
      exact ⟨['0'], rfl, Or.inl rfl⟩
    · rw [matches_seq_iff] at h
      obtain ⟨m, h1, h2⟩ := h
      rw [matches_cls_iff] at h1
      obtain ⟨d, hd, rfl⟩ := h1
      rw [matches_starCls_iff] at h2
      obtain ⟨t, rfl, hall⟩ := h2
      exact ⟨d :: t, rfl, Or.inr ⟨d, t, rfl, hd, hall⟩⟩
  · rintro ⟨w, rfl, hw⟩
    rcases hw with rfl | ⟨d, t, rfl, hd, hall⟩
    · exact Or.inl (Matches.cls (by simp))
    · exact Or.inr (Matches.seq (Matches.cls hd) (matches_starCls_of_all isDig t r hall))

theorem matches_dotRE_iff (cs r : List Char) :
    Matches dotRE cs r ↔ cs = '.' :: r := by
  rw [dotRE, matches_cls_iff]
  constructor
  · rintro ⟨c, hc, rfl⟩
    have : c = '.' := by simpa using hc
    subst this
    rfl
  · rintro rfl
    exact ⟨'.', by simp, rfl⟩

theorem matches_tripleRE_iff (cs r : List Char) :
    Matches tripleRE cs r ↔
      ∃ w1 w2 w3, NumTok w1 ∧ NumTok w2 ∧ NumTok w3 ∧
        cs = w1 ++ '.' :: (w2 ++ '.' :: (w3 ++ r)) := by
  rw [tripleRE, matches_seq_iff]
  constructor
  · rintro ⟨m1, h1, h⟩
    rw [matches_numRE_iff] at h1
    obtain ⟨w1, rfl, hw1⟩ := h1
    rw [matches_seq_iff] at h
    obtain ⟨m2, hd1, h⟩ := h
    rw [matches_dotRE_iff] at hd1
    rw [matches_seq_iff] at h
    obtain ⟨m3, h2, h⟩ := h
    rw [matches_numRE_iff] at h2
    obtain ⟨w2, rfl, hw2⟩ := h2
    rw [matches_seq_iff] at h
    obtain ⟨m4, hd2, h3⟩ := h
    rw [matches_dotRE_iff] at hd2
    rw [matches_numRE_iff] at h3
    obtain ⟨w3, rfl, hw3⟩ := h3
    exact ⟨w1, w2, w3, hw1, hw2, hw3, by rw [hd1, hd2]⟩
  · rintro ⟨w1, w2, w3, hw1, hw2, hw3, rfl⟩
    refine ⟨'.' :: (w2 ++ '.' :: (w3 ++ r)),
      (matches_numRE_iff _ _).mpr ⟨w1, rfl, hw1⟩, ?_⟩
    refine Matches.seq ((matches_dotRE_iff _ _).mpr rfl) ?_
    refine Matches.seq ((matches_numRE_iff _ _).mpr ⟨w2, rfl, hw2⟩) ?_
    exact Matches.seq ((matches_dotRE_iff _ _).mpr rfl)
      ((matches_numRE_iff _ _).mpr ⟨w3, rfl, hw3⟩)

/-- The words matched by one prerelease-identifier alternative at a
position where `rest` follows the consumed word `w`: a lone zero, a
non-zero-leading digit string, or an identifier-character word whose
position satisfies the digits-then-letter-or-hyphen lookahead. -/
def IdentTok (w rest : List Char) : Prop :=
  w = ['0'] ∨
  (w ≠ [] ∧ w.all isDig = true ∧ ∃ d t, w = d :: t ∧ isNzDig d = true) ∨
  (w ≠ [] ∧ w.all isIdC = true ∧
    ∃ ds l tl, w ++ rest = ds ++ l :: tl ∧ ds.all isDig = true ∧ isAlHy l = true)

theorem matches_preIdent1_iff (cs r : List Char) :
    Matches preIdent1 cs r ↔ ∃ w, cs = w ++ r ∧ IdentTok w r := by
  rw [preIdent1, matches_alt_iff, matches_alt_iff]
  constructor
  · rintro (h | h | h)
    · rw [preAlt1, matches_seq_iff] at h
      obtain ⟨m, h1, h2⟩ := h
      rw [matches_look_iff] at h1
      obtain ⟨rfl, _⟩ := h1
      rw [matches_cls_iff] at h2
      obtain ⟨c, hc, rfl⟩ := h2
      have hc0 : c = '0' := by simpa using hc
      subst hc0
      exact ⟨['0'], rfl, Or.inl rfl⟩
    · rw [preAlt2, matches_seq_iff] at h
      obtain ⟨m, h1, h2⟩ := h
      rw [matches_look_iff] at h1
      obtain ⟨rfl, r2, hL⟩ := h1
      rw [RE.plus, matches_seq_iff] at h2
      obtain ⟨m2, hc, hs⟩ := h2
      rw [matches_cls_iff] at hc
      obtain ⟨d0, hd0, he⟩ := hc
      rw [matches_starCls_iff] at hs
      obtain ⟨t, rfl, hall⟩ := hs
      rw [matches_seq_iff] at hL
      obtain ⟨mL, hLc, _⟩ := hL
      rw [matches_cls_iff] at hLc
      obtain ⟨dL, hdL, heL⟩ := hLc
      have hdd : d0 = dL := by
        rw [he] at heL
        exact ((List.cons.injEq _ _ _ _).mp heL).1
      have hd0nz : isNzDig d0 = true := by rw [hdd]; exact hdL
      refine ⟨d0 :: t, by rw [he]; rfl, Or.inr (Or.inl ⟨by simp, ?_, d0, t, rfl, hd0nz⟩)⟩
      have hdig : isDig d0 = true := by
        rw [isDig]
        rw [isNzDig] at hd0nz
        rw [Bool.and_eq_true] at hd0nz ⊢
        exact ⟨decide_eq_true (le_trans (show ('0' : Char) ≤ '1' by decide)
          (of_decide_eq_true hd0nz.1)), hd0nz.2⟩
      simp [hdig, hall]
    · rw [preAlt3, matches_seq_iff] at h
      obtain ⟨m, h1, h2⟩ := h
      rw [matches_look_iff] at h1
      obtain ⟨rfl, r3, hL⟩ := h1
      rw [matches_plusCls_iff] at h2
      obtain ⟨w, hne, hall, rfl⟩ := h2
      rw [matches_seq_iff] at hL
      obtain ⟨m1, hds, hL2⟩ := hL
      rw [matches_starCls_iff] at hds
      obtain ⟨ds, hcs, hdsD⟩ := hds
      rw [matches_seq_iff] at hL2
      obtain ⟨m2, hls, _⟩ := hL2
      rw [matches_plusCls_iff] at hls
      obtain ⟨ls, hlsne, hlsH, rfl⟩ := hls
      cases ls with
      | nil => exact absurd rfl hlsne
      | cons l ls' =>
        rw [List.all_cons, Bool.and_eq_true] at hlsH
        refine ⟨w, rfl, Or.inr (Or.inr ⟨hne, hall, ds, l, ls' ++ m2, ?_, hdsD, hlsH.1⟩)⟩
        rw [hcs]
        simp
  · rintro ⟨w, rfl, hw⟩
    rcases hw with rfl | ⟨hne, hall, d, t, rfl, hd⟩ | ⟨hne, hall, ds, l, tl, heq, hdsD, hl⟩
    · exact Or.inl (Matches.seq (Matches.look (Matches.cls (by simp)))
        (Matches.cls (by simp)))
    · refine Or.inr (Or.inl ?_)
      rw [preAlt2]
      refine Matches.seq ((matches_look_iff _ _ _).mpr ⟨rfl, t ++ r, ?_⟩)
        (matches_plusCls_of_all isDig (d :: t) r (by simp) hall)
      exact Matches.seq (Matches.cls hd) Matches.starN
    · refine Or.inr (Or.inr ?_)
      rw [preAlt3]
      refine Matches.seq ((matches_look_iff _ _ _).mpr ⟨rfl, tl, ?_⟩)
        (matches_plusCls_of_all isIdC w r hne hall)
      rw [heq]
      refine Matches.seq (matches_starCls_of_all isDig ds (l :: tl) hdsD) ?_
      refine Matches.seq (matches_plusCls_of_all isAlHy [l] tl (by simp) (by simp [hl])) ?_
      exact Matches.starN

theorem matches_preIdentDotted_iff (cs r : List Char) :
    Matches preIdentDotted cs r ↔
      ∃ tail, cs = '.' :: tail ∧ Matches preIdent1 tail r := by
  rw [preIdentDotted, matches_alt_iff, matches_alt_iff]
  constructor
  · rintro (h | h | h) <;> rw [matches_seq_iff] at h <;> obtain ⟨m, hd, hk⟩ := h <;>
      rw [matches_dotRE_iff] at hd <;> subst hd
    · exact ⟨m, rfl, (matches_alt_iff _ _ _ _).mpr (Or.inl hk)⟩
    · exact ⟨m, rfl, (matches_alt_iff _ _ _ _).mpr
        (Or.inr ((matches_alt_iff _ _ _ _).mpr (Or.inl hk)))⟩
    · exact ⟨m, rfl, (matches_alt_iff _ _ _ _).mpr
        (Or.inr ((matches_alt_iff _ _ _ _).mpr (Or.inr hk)))⟩
  · rintro ⟨tail, rfl, h⟩
    rw [preIdent1, matches_alt_iff, matches_alt_iff] at h
    rcases h with h | h | h
    · exact Or.inl (Matches.seq ((matches_dotRE_iff _ _).mpr rfl) h)
    · exact Or.inr (Or.inl (Matches.seq ((matches_dotRE_iff _ _).mpr rfl) h))
    · exact Or.inr (Or.inr (Matches.seq ((matches_dotRE_iff _ _).mpr rfl) h))

/-! ## Token-level lemmas linking regex words to grammar identifiers -/

theorem isDig_of_isNzDig (c : Char) (h : isNzDig c = true) : isDig c = true := by
  rw [isNzDig, Bool.and_eq_true] at h
  rw [isDig, Bool.and_eq_true]
  exact ⟨decide_eq_true (le_trans (show ('0' : Char) ≤ '1' by decide)
    (of_decide_eq_true h.1)), h.2⟩

theorem isIdC_of_isDig (c : Char) (h : isDig c = true) : isIdC c = true := by
  rw [isIdC, h]
  rfl

theorem isIdC_of_isAlHy (c : Char) (h : isAlHy c = true) : isIdC c = true := by
  rw [isAlHy, Bool.or_eq_true] at h
  rw [isIdC]
  rcases h with h | h
  · rw [h]
    simp
  · rw [h]
    simp

theorem isDig_of_idC_not_alHy (c : Char) (h1 : isIdC c = true) (h2 : isAlHy c = false) :
    isDig c = true := by
  rw [isIdC, Bool.or_eq_true, Bool.or_eq_true] at h1
  rw [isAlHy, Bool.or_eq_false_iff] at h2
  rcases h1 with (h | h) | h
  · exact h
  · rw [h2.1] at h
    exact absurd h (by simp)
  · rw [h2.2] at h
    exact absurd h (by simp)

theorem all_mono (p q : Char → Bool) (himp : ∀ c, p c = true → q c = true)
    (l : List Char) (h : l.all p = true) : l.all q = true := by
  rw [List.all_eq_true] at h ⊢
  intro c hc
  exact himp c (h c hc)

theorem not_mem_of_all_not (p : Char → Bool) (c : Char) (hc : p c = false)
    (a : List Char) (ha : a.all p = true) : c ∉ a := by
  intro hm
  have := List.all_eq_true.mp ha c hm
  rw [hc] at this
  exact absurd this (by simp)

/-- The character after the current position is not an identifier
character: the situation after a complete prerelease identifier inside a
full match (next is `.`, `+`, the end, or the `$`-permitted newline). -/
def NotIdentHead (r : List Char) : Prop :=
  ∀ ch, r.head? = some ch → isIdC ch = false

/-- Maximality: a word of identifier characters that fills the whole
gap up to a non-identifier boundary and whose position satisfies the
digits-then-letter-or-hyphen lookahead must itself contain the letter or
hyphen. -/
theorem any_alHy_of_decomp :
    ∀ (w ds : List Char) (l : Char) (tl rest : List Char),
      w ++ rest = ds ++ l :: tl → ds.all isDig = true → isAlHy l = true →
      NotIdentHead rest → w.any isAlHy = true := by
  intro w
  induction w with
  | nil =>
    intro ds l tl rest heq hds hl hrest
    exfalso
    rw [List.nil_append] at heq
    cases ds with
    | nil =>
      rw [List.nil_append] at heq
      have := hrest l (by rw [heq]; rfl)
      rw [isIdC_of_isAlHy l hl] at this
      exact absurd this (by simp)
    | cons d ds' =>
      rw [List.all_cons, Bool.and_eq_true] at hds
      have := hrest d (by rw [heq]; rfl)
      rw [isIdC_of_isDig d hds.1] at this
      exact absurd this (by simp)
  | cons x w' ih =>
    intro ds l tl rest heq hds hl hrest
    cases ds with
    | nil =>
      rw [List.nil_append] at heq
      have hx : x = l := ((List.cons.injEq _ _ _ _).mp heq).1
      subst hx
      rw [List.any_cons, hl]
      rfl
    | cons d ds' =>
      rw [List.cons_append, List.cons_append] at heq
      have hx : x = d := ((List.cons.injEq _ _ _ _).mp heq).1
      have htl : w' ++ rest = ds' ++ l :: tl := ((List.cons.injEq _ _ _ _).mp heq).2
      rw [List.all_cons, Bool.and_eq_true] at hds
      rw [List.any_cons, ih ds' l tl rest htl hds.2 hl hrest]
      simp

/-- A regex identifier word followed by a non-identifier boundary is a
canonical prerelease identifier. -/
theorem preIdentOK_of_identTok (w rest : List Char) (ht : IdentTok w rest)
    (hrest : NotIdentHead rest) :
    preIdentOK w = true ∧ w ≠ [] ∧ w.all isIdC = true := by
  rcases ht with rfl | ⟨hne, hall, d, t, rfl, hd⟩ | ⟨hne, hall, ds, l, tl, heq, hds, hl⟩
  · exact ⟨by decide, by simp, by decide⟩
  · refine ⟨?_, hne, all_mono isDig isIdC isIdC_of_isDig _ hall⟩
    rw [preIdentOK, Bool.or_eq_true]
    left
    rw [List.all_cons, Bool.and_eq_true] at hall
    rw [numericIdent]
    rw [hd, hall.2]
    simp
  · refine ⟨?_, hne, hall⟩
    rw [preIdentOK, Bool.or_eq_true]
    right
    rw [alnumIdent]
    rw [any_alHy_of_decomp w ds l tl rest heq hds hl hrest, hall]
    simp [hne]

/-- Locate the first letter-or-hyphen in an identifier word: everything
before it is a digit. -/
theorem first_alHy_decomp (t : List Char) (hall : t.all isIdC = true)
    (hany : t.any isAlHy = true) :
    ∃ ds l tl, t = ds ++ l :: tl ∧ ds.all isDig = true ∧ isAlHy l = true := by
  induction t with
  | nil => exact absurd hany (by simp)
  | cons x t' ih =>
    rw [List.all_cons, Bool.and_eq_true] at hall
    by_cases hx : isAlHy x = true
    · exact ⟨[], x, t', rfl, rfl, hx⟩
    · have hxf : isAlHy x = false := by
        cases hxv : isAlHy x
        · rfl
        · exact absurd hxv hx
      have hxd : isDig x = true := isDig_of_idC_not_alHy x hall.1 hxf
      have hany' : t'.any isAlHy = true := by
        rw [List.any_cons, hxf] at hany
        simpa using hany
      obtain ⟨ds, l, tl, heq, hds, hl⟩ := ih hall.2 hany'
      exact ⟨x :: ds, l, tl, by rw [heq, List.cons_append],
        by rw [List.all_cons, hxd, hds]; rfl, hl⟩

/-- A canonical prerelease identifier is matched by the first-identifier
alternation. -/
theorem matches_preIdent1_of_tok (t X : List Char) (hok : preIdentOK t = true)
    (hne : t ≠ []) : Matches preIdent1 (t ++ X) X := by
  rw [matches_preIdent1_iff]
  refine ⟨t, rfl, ?_⟩
  rw [preIdentOK, Bool.or_eq_true] at hok
  rcases hok with hnum | halnum
  · cases t with
    | nil => exact absurd rfl hne
    | cons c cs =>
      rw [numericIdent] at hnum
      simp only [Bool.or_eq_true, Bool.and_eq_true] at hnum
      rcases hnum with ⟨hc, hcs⟩ | ⟨hc, hcs⟩
      · have hc' : c = '0' := by simpa using hc
        have hcs' : cs = [] := by simpa using hcs
        subst hc'
        subst hcs'
        exact Or.inl rfl
      · refine Or.inr (Or.inl ⟨by simp, ?_, c, cs, rfl, hc⟩)
        rw [List.all_cons, isDig_of_isNzDig c hc, hcs]
        rfl
  · rw [alnumIdent] at halnum
    simp only [Bool.and_eq_true] at halnum
    obtain ⟨⟨hne', hall⟩, hany⟩ := halnum
    obtain ⟨ds, l, tl, heq, hds, hl⟩ := first_alHy_decomp t hall hany
    refine Or.inr (Or.inr ⟨hne, hall, ds, l, tl ++ X, ?_, hds, hl⟩)
    rw [heq]
    simp

/-- Soundness of the dotted-identifier star: it consumes a dot-separated
chain of canonical identifiers when it stops at a non-identifier
boundary. -/
theorem star_dotted_inv :
    ∀ re cs r, Matches re cs r → re = RE.star preIdentDotted → NotIdentHead r →
      ∃ ts : List (List Char),
        cs = (ts.map (fun t => '.' :: t)).flatten ++ r ∧
        ∀ t ∈ ts, preIdentOK t = true ∧ t ≠ [] ∧ t.all isIdC = true := by
  intro re cs r h
  induction h with
  | cls _ => intro hre; exact RE.noConfusion hre
  | eps => intro hre; exact RE.noConfusion hre
  | seq _ _ _ _ => intro hre; exact RE.noConfusion hre
  | altL _ _ => intro hre; exact RE.noConfusion hre
  | altR _ _ => intro hre; exact RE.noConfusion hre
  | look _ _ => intro hre; exact RE.noConfusion hre
  | starN => intro _ _; exact ⟨[], by simp, by simp⟩
  | @starC a cs m r h1 hlt h2 ih1 ih2 =>
    intro hre hr
    injection hre with ha
    subst ha
    obtain ⟨ts, hm, hts⟩ := ih2 rfl hr
    rw [matches_preIdentDotted_iff] at h1
    obtain ⟨tail, rfl, hp1⟩ := h1
    rw [matches_preIdent1_iff] at hp1
    obtain ⟨w, rfl, hw⟩ := hp1
    have hm' : NotIdentHead m := by
      cases ts with
      | nil =>
        rw [List.map_nil, List.flatten_nil, List.nil_append] at hm
        rw [hm]
        exact hr
      | cons t ts' =>
        intro ch hch
        rw [hm, List.map_cons, List.flatten_cons] at hch
        have hch' : ch = '.' := by
          have := hch
          simp at this
          exact this.symm
        subst hch'
        rfl
    obtain ⟨hok, hne, hidc⟩ := preIdentOK_of_identTok w m hw hm'
    refine ⟨w :: ts, ?_, ?_⟩
    · rw [List.map_cons, List.flatten_cons, hm]
      simp
    · intro t ht
      rcases List.mem_cons.mp ht with rfl | ht'
      · exact ⟨hok, hne, hidc⟩
      · exact hts t ht'

/-- Completeness of the dotted-identifier star. -/
theorem star_dotted_of_tokens (ts : List (List Char)) (r : List Char)
    (h : ∀ t ∈ ts, preIdentOK t = true ∧ t ≠ []) :
    Matches (RE.star preIdentDotted) ((ts.map (fun t => '.' :: t)).flatten ++ r) r := by
  induction ts with
  | nil => simpa using Matches.starN
  | cons t ts' ih =>
    have ht := h t (List.mem_cons_self _ _)
    rw [List.map_cons, List.flatten_cons]
    have hshape : ('.' :: t) ++ (ts'.map (fun t => '.' :: t)).flatten ++ r
        = '.' :: (t ++ ((ts'.map (fun t => '.' :: t)).flatten ++ r)) := by simp
    rw [hshape]
    refine Matches.starC ?_ (by simp; omega) (ih (fun u hu => h u (List.mem_cons_of_mem _ hu)))
    rw [matches_preIdentDotted_iff]
    exact ⟨_, rfl, matches_preIdent1_of_tok t _ ht.1 ht.2⟩

theorem joinDot_cons_ne (p : List Char) (ps : List (List Char)) (h : ps ≠ []) :
    joinDot (p :: ps) = p ++ '.' :: joinDot ps := by
  cases ps with
  | nil => exact absurd rfl h
  | cons q qs => rfl

theorem joinDot_cons_flatten (t0 : List Char) (ts : List (List Char)) :
    joinDot (t0 :: ts) = t0 ++ (ts.map (fun t => '.' :: t)).flatten := by
  induction ts generalizing t0 with
  | nil => simp [joinDot]
  | cons t1 ts' ih =>
    rw [joinDot_cons_ne t0 (t1 :: ts') (by simp), ih t1, List.map_cons, List.flatten_cons]
    simp

theorem prerelease_inv (cs r : List Char) (h : Matches prereleaseRE cs r)
    (hr : NotIdentHead r) :
    ∃ ts : List (List Char), ts ≠ [] ∧ cs = joinDot ts ++ r ∧
      ∀ t ∈ ts, preIdentOK t = true ∧ t ≠ [] ∧ t.all isIdC = true := by
  rw [prereleaseRE, matches_seq_iff] at h
  obtain ⟨m, h1, h2⟩ := h
  rw [matches_preIdent1_iff] at h1
  obtain ⟨w0, rfl, hw0⟩ := h1
  obtain ⟨ts, hm, hts⟩ := star_dotted_inv _ m r h2 rfl hr
  have hm' : NotIdentHead m := by
    cases ts with
    | nil =>
      rw [List.map_nil, List.flatten_nil, List.nil_append] at hm
      rw [hm]
      exact hr
    | cons t ts' =>
      intro ch hch
      rw [hm, List.map_cons, List.flatten_cons] at hch
      have hch' : ch = '.' := by
        have := hch
        simp at this
        exact this.symm
      subst hch'
      rfl
  obtain ⟨hok0, hne0, hidc0⟩ := preIdentOK_of_identTok w0 m hw0 hm'
  refine ⟨w0 :: ts, by simp, ?_, ?_⟩
  · rw [joinDot_cons_flatten, hm]
    simp
  · intro t ht
    rcases List.mem_cons.mp ht with rfl | ht'
    · exact ⟨hok0, hne0, hidc0⟩
    · exact hts t ht'

theorem prerelease_of_tokens (ts : List (List Char)) (hne : ts ≠ []) (r : List Char)
    (h : ∀ t ∈ ts, preIdentOK t = true ∧ t ≠ []) :
    Matches prereleaseRE (joinDot ts ++ r) r := by
  cases ts with
  | nil => exact absurd rfl hne
  | cons t0 ts' =>
    rw [joinDot_cons_flatten, List.append_assoc]
    have ht0 := h t0 (List.mem_cons_self _ _)
    exact Matches.seq (matches_preIdent1_of_tok t0 _ ht0.1 ht0.2)
      (star_dotted_of_tokens ts' r (fun u hu => h u (List.mem_cons_of_mem _ hu)))

theorem star_dotBuild_inv :
    ∀ re cs r, Matches re cs r → re = RE.star (RE.seq dotRE buildIdentRE) →
      ∃ ts : List (List Char),
        cs = (ts.map (fun t => '.' :: t)).flatten ++ r ∧
        ∀ t ∈ ts, t ≠ [] ∧ t.all isIdC = true := by
  intro re cs r h
  induction h with
  | cls _ => intro hre; exact RE.noConfusion hre
  | eps => intro hre; exact RE.noConfusion hre
  | seq _ _ _ _ => intro hre; exact RE.noConfusion hre
  | altL _ _ => intro hre; exact RE.noConfusion hre
  | altR _ _ => intro hre; exact RE.noConfusion hre
  | look _ _ => intro hre; exact RE.noConfusion hre
  | starN => intro _; exact ⟨[], by simp, by simp⟩
  | @starC a cs m r h1 hlt h2 ih1 ih2 =>
    intro hre
    injection hre with ha
    subst ha
    obtain ⟨ts, hm, hts⟩ := ih2 rfl
    rw [matches_seq_iff] at h1
    obtain ⟨m1, hd, hp⟩ := h1
    rw [matches_dotRE_iff] at hd
    subst hd
    rw [buildIdentRE, matches_plusCls_iff] at hp
    obtain ⟨w, hwne, hwall, rfl⟩ := hp
    refine ⟨w :: ts, ?_, ?_⟩
    · rw [List.map_cons, List.flatten_cons, hm]
      simp
    · intro t ht
      rcases List.mem_cons.mp ht with rfl | ht'
      · exact ⟨hwne, hwall⟩
      · exact hts t ht'

theorem star_dotBuild_of_tokens (ts : List (List Char)) (r : List Char)
    (h : ∀ t ∈ ts, t ≠ [] ∧ t.all isIdC = true) :
    Matches (RE.star (RE.seq dotRE buildIdentRE))
      ((ts.map (fun t => '.' :: t)).flatten ++ r) r := by
  induction ts with
  | nil => simpa using Matches.starN
  | cons t ts' ih =>
    have ht := h t (List.mem_cons_self _ _)
    rw [List.map_cons, List.flatten_cons]
    have hshape : ('.' :: t) ++ (ts'.map (fun t => '.' :: t)).flatten ++ r
        = '.' :: (t ++ ((ts'.map (fun t => '.' :: t)).flatten ++ r)) := by simp
    rw [hshape]
    refine Matches.starC ?_ (by simp; omega)
      (ih (fun u hu => h u (List.mem_cons_of_mem _ hu)))
    exact Matches.seq ((matches_dotRE_iff _ _).mpr rfl)
      (matches_plusCls_of_all isIdC t _ ht.1 ht.2)

theorem build_inv (cs r : List Char) (h : Matches buildRE cs r) :
    ∃ ts : List (List Char), ts ≠ [] ∧ cs = joinDot ts ++ r ∧
      ∀ t ∈ ts, t ≠ [] ∧ t.all isIdC = true := by
  rw [buildRE, matches_seq_iff] at h
  obtain ⟨m, h1, h2⟩ := h
  rw [buildIdentRE, matches_plusCls_iff] at h1
  obtain ⟨w0, hne0, hall0, rfl⟩ := h1
  obtain ⟨ts, hm, hts⟩ := star_dotBuild_inv _ m r h2 rfl
  refine ⟨w0 :: ts, by simp, ?_, ?_⟩
  · rw [joinDot_cons_flatten, hm]
    simp
  · intro t ht
    rcases List.mem_cons.mp ht with rfl | ht'
    · exact ⟨hne0, hall0⟩
    · exact hts t ht'

theorem build_of_tokens (ts : List (List Char)) (hne : ts ≠ []) (r : List Char)
    (h : ∀ t ∈ ts, t ≠ [] ∧ t.all isIdC = true) :
    Matches buildRE (joinDot ts ++ r) r := by
  cases ts with
  | nil => exact absurd rfl hne
  | cons t0 ts' =>
    rw [joinDot_cons_flatten, List.append_assoc]
    have ht0 := h t0 (List.mem_cons_self _ _)
    exact Matches.seq (matches_plusCls_of_all isIdC t0 _ ht0.1 ht0.2)
      (star_dotBuild_of_tokens ts' r (fun u hu => h u (List.mem_cons_of_mem _ hu)))

/-! ## pySplit inversion lemmas -/

theorem pySplit_zero (c : Char) (cs : List Char) : pySplit c (some 0) cs = [cs] := by
  induction cs with
  | nil => rfl
  | cons x xs ih =>
    rw [pySplit, if_neg (by simp)]
    rw [ih]
    rfl

theorem pySplit1_single_inv (c : Char) (cs x : List Char)
    (h : pySplit c (some 1) cs = [x]) : cs = x ∧ c ∉ x := by
  induction cs generalizing x with
  | nil =>
    rw [pySplit] at h
    have hx : x = ([] : List Char) := by
      have := ((List.cons.injEq _ _ _ _).mp h).1
      exact this.symm
    subst hx
    exact ⟨rfl, by simp⟩
  | cons ch cs' ih =>
    rw [pySplit] at h
    by_cases hc : ch = c
    · rw [if_pos ⟨hc, by simp⟩] at h
      have := ((List.cons.injEq _ _ _ _).mp h).2
      exact absurd this (pySplit_ne_nil _ _ _)
    · rw [if_neg (fun hp => hc hp.1)] at h
      cases hps : pySplit c (some 1) cs' with
      | nil => exact absurd hps (pySplit_ne_nil _ _ _)
      | cons p ps =>
        rw [hps, withHead] at h
        have h1 : x = ch :: p := ((List.cons.injEq _ _ _ _).mp h).1.symm
        have h2 : ps = [] := ((List.cons.injEq _ _ _ _).mp h).2
        subst h2
        obtain ⟨hcs, hnp⟩ := ih p hps
        subst h1
        rw [hcs]
        refine ⟨rfl, ?_⟩
        intro hm
        rcases List.mem_cons.mp hm with h3 | h3
        · exact hc h3.symm
        · exact hnp h3

theorem pySplit1_pair_inv (c : Char) (cs x y : List Char)
    (h : pySplit c (some 1) cs = [x, y]) : cs = x ++ c :: y ∧ c ∉ x := by
  induction cs generalizing x with
  | nil =>
    rw [pySplit] at h
    exact absurd ((List.cons.injEq _ _ _ _).mp h).2 (by simp)
  | cons ch cs' ih =>
    rw [pySplit] at h
    by_cases hc : ch = c
    · subst hc
      rw [if_pos ⟨rfl, by simp⟩] at h
      have h1 : x = ([] : List Char) := ((List.cons.injEq _ _ _ _).mp h).1.symm
      have h2 : pySplit ch (some 0) cs' = [y] := by
        have := ((List.cons.injEq _ _ _ _).mp h).2
        simpa using this
      rw [pySplit_zero] at h2
      have h3 : y = cs' := (((List.cons.injEq _ _ _ _).mp h2).1).symm
      subst h1
      subst h3
      exact ⟨rfl, by simp⟩
    · rw [if_neg (fun hp => hc hp.1)] at h
      cases hps : pySplit c (some 1) cs' with
      | nil => exact absurd hps (pySplit_ne_nil _ _ _)
      | cons p ps =>
        rw [hps, withHead] at h
        have h1 : x = ch :: p := ((List.cons.injEq _ _ _ _).mp h).1.symm
        have h2 : ps = [y] := ((List.cons.injEq _ _ _ _).mp h).2
        subst h2
        obtain ⟨hcs, hnp⟩ := ih p (by rw [hps])
        subst h1
        rw [hcs]
        refine ⟨rfl, ?_⟩
        intro hm
        rcases List.mem_cons.mp hm with h3 | h3
        · exact hc h3.symm
        · exact hnp h3

theorem pySplit_none_dot_inv (cs : List Char) :
    ∀ ts, pySplit '.' none cs = ts → cs = joinDot ts ∧ ∀ t ∈ ts, '.' ∉ t := by
  induction cs with
  | nil =>
    intro ts h
    rw [pySplit] at h
    subst h
    exact ⟨rfl, by simp⟩
  | cons ch cs' ih =>
    intro ts h
    rw [pySplit] at h
    by_cases hc : ch = '.'
    · subst hc
      rw [if_pos ⟨rfl, by simp⟩] at h
      have hmap : (none : Option Nat).map Nat.pred = none := rfl
      rw [hmap] at h
      obtain ⟨h1, h2⟩ := ih (pySplit '.' none cs') rfl
      subst h
      constructor
      · rw [joinDot_cons_ne _ _ (pySplit_ne_nil _ _ _), ← h1]
        rfl
      · intro t ht
        rcases List.mem_cons.mp ht with rfl | ht'
        · simp
        · exact h2 t ht'
    · rw [if_neg (fun hp => hc hp.1)] at h
      cases hps : pySplit '.' none cs' with
      | nil => exact absurd hps (pySplit_ne_nil _ _ _)
      | cons p ps =>
        rw [hps, withHead] at h
        obtain ⟨h1, h2⟩ := ih (p :: ps) hps
        subst h
        constructor
        · cases ps with
          | nil =>
            rw [joinDot] at h1
            rw [joinDot, h1]
          | cons q qs =>
            rw [joinDot_cons_ne _ _ (by simp)] at h1
            rw [joinDot_cons_ne _ _ (by simp), h1]
            rfl
        · intro t ht
          rcases List.mem_cons.mp ht with rfl | ht'
          · intro hm
            rcases List.mem_cons.mp hm with h3 | h3
            · exact hc h3.symm
            · exact h2 p (List.mem_cons_self _ _) h3
          · exact h2 t (List.mem_cons_of_mem _ ht')

theorem dollarOk_notIdentHead (r : List Char) (hd : dollarOk r = true) :
    NotIdentHead r := by
  rw [dollarOk, Bool.or_eq_true] at hd
  rcases hd with h | h
  · have hr : r = [] := by simpa using h
    subst hr
    intro ch hch
    exact absurd hch (by simp)
  · have hr : r = ['\n'] := by simpa using h
    subst hr
    intro ch hch
    have hch' : ch = '\n' := by
      have := hch
      simp at this
      exact this.symm
    subst hch'
    rfl

theorem numTok_all_isDig {w : List Char} (h : NumTok w) :
    w.all isDig = true ∧ w ≠ [] := by
  rcases h with rfl | ⟨d, t, rfl, hd, ht⟩
  · exact ⟨by decide, by simp⟩
  · refine ⟨?_, by simp⟩
    rw [List.all_cons, isDig_of_isNzDig d hd, ht]
    rfl

theorem numTok_numericIdent {w : List Char} (h : NumTok w) :
    numericIdent w = true := by
  rcases h with rfl | ⟨d, t, rfl, hd, ht⟩
  · decide
  · rw [numericIdent, hd, ht]
    simp

theorem mem_joinDot {c : Char} {ts : List (List Char)} (h : c ∈ joinDot ts) :
    c = '.' ∨ ∃ t ∈ ts, c ∈ t := by
  induction ts with
  | nil => exact absurd h (by simp [joinDot])
  | cons t ts' ih =>
    cases ts' with
    | nil =>
      rw [joinDot] at h
      exact Or.inr ⟨t, by simp, h⟩
    | cons u us =>
      rw [joinDot_cons_ne _ _ (by simp)] at h
      rw [List.mem_append, List.mem_cons] at h
      rcases h with h | h | h
      · exact Or.inr ⟨t, by simp, h⟩
      · exact Or.inl h
      · rcases ih h with h' | ⟨v, hv, hcv⟩
        · exact Or.inl h'
        · exact Or.inr ⟨v, List.mem_cons_of_mem _ hv, hcv⟩

theorem not_mem_joinDot (x : Char) (ts : List (List Char)) (hx : x ≠ '.')
    (hid : isIdC x = false) (hts : ∀ t ∈ ts, t.all isIdC = true) :
    x ∉ joinDot ts := by
  intro hm
  rcases mem_joinDot hm with h | ⟨t, ht, hxt⟩
  · exact hx h
  · exact not_mem_of_all_not isIdC x hid t (hts t ht) hxt

theorem pySplit_none_dot_join (ts : List (List Char)) (hne : ts ≠ [])
    (h : ∀ t ∈ ts, '.' ∉ t) : pySplit '.' none (joinDot ts) = ts := by
  induction ts with
  | nil => exact absurd rfl hne
  | cons t ts' ih =>
    cases ts' with
    | nil =>
      rw [joinDot]
      exact pySplit_no_sep '.' none t (h t (List.mem_cons_self _ _))
    | cons u us =>
      rw [joinDot_cons_ne _ _ (by simp)]
      rw [pySplit_none_cons_sep '.' t _ (h t (List.mem_cons_self _ _))]
      rw [ih (by simp) (fun v hv => h v (List.mem_cons_of_mem _ hv))]

/-- Soundness half of the SEMVER_RE / grammar equivalence: a full regex
match (up to the `$`-tolerated trailing newline) is accepted by the
canonical grammar. -/
theorem semver_sound (cs r : List Char) (hm : Matches semverRE cs r)
    (hd : dollarOk r = true) :
    ∃ consumed, cs = consumed ++ r ∧ semverGrammar (String.mk consumed) = true ∧
      '\n' ∉ consumed := by
  have hr : NotIdentHead r := dollarOk_notIdentHead r hd
  rw [semverRE, matches_seq_iff] at hm
  obtain ⟨m, htr, htags⟩ := hm
  rw [matches_tripleRE_iff] at htr
  obtain ⟨w1, w2, w3, h1, h2, h3, rfl⟩ := htr
  rw [tagsRE, matches_seq_iff] at htags
  obtain ⟨m2, hA, hB⟩ := htags
  rw [RE.opt, matches_alt_iff] at hA hB
  have hBfact : ∃ buildP, m2 = buildP ++ r ∧
      (buildP = [] ∨ ∃ bts, bts ≠ [] ∧ buildP = '+' :: joinDot bts ∧
        ∀ t ∈ bts, t ≠ [] ∧ t.all isIdC = true) := by
    rcases hB with hB | hB
    · rw [matches_seq_iff] at hB
      obtain ⟨m3, hplus, hbuild⟩ := hB
      rw [matches_cls_iff] at hplus
      obtain ⟨c, hc, rfl⟩ := hplus
      have hc' : c = '+' := by simpa using hc
      subst hc'
      obtain ⟨bts, hbne, rfl, hbts⟩ := build_inv m3 r hbuild
      exact ⟨'+' :: joinDot bts, by simp, Or.inr ⟨bts, hbne, rfl, hbts⟩⟩
    · rw [matches_eps_iff] at hB
      exact ⟨[], by rw [List.nil_append, hB], Or.inl rfl⟩
  obtain ⟨buildP, rfl, hbuildP⟩ := hBfact
  have hm2head : NotIdentHead (buildP ++ r) := by
    rcases hbuildP with rfl | ⟨bts, hbne, rfl, hbts⟩
    · rw [List.nil_append]
      exact hr
    · intro ch hch
      have hch' : ch = '+' := by
        have := hch
        simp at this
        exact this.symm
      subst hch'
      rfl
  have hAfact : ∃ preP, m = preP ++ (buildP ++ r) ∧
      (preP = [] ∨ ∃ pts, pts ≠ [] ∧ preP = '-' :: joinDot pts ∧
        ∀ t ∈ pts, preIdentOK t = true ∧ t ≠ [] ∧ t.all isIdC = true) := by
    rcases hA with hA | hA
    · rw [matches_seq_iff] at hA
      obtain ⟨m3, hdash, hpre⟩ := hA
      rw [matches_cls_iff] at hdash
      obtain ⟨c, hc, rfl⟩ := hdash
      have hc' : c = '-' := by simpa using hc
      subst hc'
      obtain ⟨pts, hpne, rfl, hpts⟩ := prerelease_inv m3 _ hpre hm2head
      exact ⟨'-' :: joinDot pts, by simp, Or.inr ⟨pts, hpne, rfl, hpts⟩⟩
    · rw [matches_eps_iff] at hA
      exact ⟨[], by rw [List.nil_append, ← hA], Or.inl rfl⟩
  obtain ⟨preP, rfl, hpreP⟩ := hAfact
  have hw1 := numTok_all_isDig h1
  have hw2 := numTok_all_isDig h2
  have hw3 := numTok_all_isDig h3
  refine ⟨w1 ++ '.' :: (w2 ++ '.' :: (w3 ++ (preP ++ buildP))), by simp, ?_, ?_⟩
  · -- the grammar accepts the consumed word
    have hnoPlusTriplePre : '+' ∉ w1 ++ '.' :: (w2 ++ '.' :: (w3 ++ preP)) := by
      intro hmem
      simp only [List.mem_append, List.mem_cons] at hmem
      rcases hmem with h' | h' | h' | h' | h' | h'
      · exact not_mem_of_all_not isDig '+' rfl w1 hw1.1 h'
      · exact absurd h' (by decide)
      · exact not_mem_of_all_not isDig '+' rfl w2 hw2.1 h'
      · exact absurd h' (by decide)
      · exact not_mem_of_all_not isDig '+' rfl w3 hw3.1 h'
      · rcases hpreP with rfl | ⟨pts, hpne, rfl, hpts⟩
        · exact absurd h' (by simp)
        · rcases List.mem_cons.mp h' with h'' | h''
          · exact absurd h'' (by decide)
          · exact not_mem_joinDot '+' pts (by decide) rfl
              (fun t ht => (hpts t ht).2.2) h''
    have hTripleOK : tripleOK (w1 ++ '.' :: (w2 ++ '.' :: w3)) = true := by
      rw [tripleOK]
      rw [pySplit_none_cons_sep '.' w1 _
        (not_mem_of_all_not isDig '.' rfl w1 hw1.1)]
      rw [pySplit_none_cons_sep '.' w2 _
        (not_mem_of_all_not isDig '.' rfl w2 hw2.1)]
      rw [pySplit_no_sep '.' none w3 (not_mem_of_all_not isDig '.' rfl w3 hw3.1)]
      show (numericIdent w1 && numericIdent w2 && numericIdent w3) = true
      rw [numTok_numericIdent h1, numTok_numericIdent h2, numTok_numericIdent h3]
      rfl
    have hCoreOK : coreOK (w1 ++ '.' :: (w2 ++ '.' :: (w3 ++ preP))) = true := by
      rw [coreOK]
      rcases hpreP with rfl | ⟨pts, hpne, rfl, hpts⟩
      · rw [List.append_nil]
        rw [pySplit_no_sep '-' (some 1) _ (by
          intro hmem
          simp only [List.mem_append, List.mem_cons] at hmem
          rcases hmem with h' | h' | h' | h' | h'
          · exact not_mem_of_all_not isDig '-' rfl w1 hw1.1 h'
          · exact absurd h' (by decide)
          · exact not_mem_of_all_not isDig '-' rfl w2 hw2.1 h'
          · exact absurd h' (by decide)
          · exact not_mem_of_all_not isDig '-' rfl w3 hw3.1 h')]
        show tripleOK (w1 ++ '.' :: (w2 ++ '.' :: w3)) = true
        exact hTripleOK
      · have hshape : w1 ++ '.' :: (w2 ++ '.' :: (w3 ++ '-' :: joinDot pts))
            = (w1 ++ '.' :: (w2 ++ '.' :: w3)) ++ '-' :: joinDot pts := by simp
        rw [hshape]
        rw [pySplit_cons_sep '-' 0 _ _ (by
          intro hmem
          simp only [List.mem_append, List.mem_cons] at hmem
          rcases hmem with h' | h' | h' | h' | h'
          · exact not_mem_of_all_not isDig '-' rfl w1 hw1.1 h'
          · exact absurd h' (by decide)
          · exact not_mem_of_all_not isDig '-' rfl w2 hw2.1 h'
          · exact absurd h' (by decide)
          · exact not_mem_of_all_not isDig '-' rfl w3 hw3.1 h')]
        rw [pySplit_zero]
        show (tripleOK (w1 ++ '.' :: (w2 ++ '.' :: w3))
          && (pySplit '.' none (joinDot pts)).all preIdentOK) = true
        rw [hTripleOK]
        rw [pySplit_none_dot_join pts hpne (fun t ht =>
          not_mem_of_all_not isIdC '.' rfl t (hpts t ht).2.2)]
        rw [Bool.true_and, List.all_eq_true]
        intro t ht
        exact (hpts t ht).1
    rw [semverGrammar]
    rcases hbuildP with rfl | ⟨bts, hbne, rfl, hbts⟩
    · rw [List.append_nil]
      rw [pySplit_no_sep '+' (some 1) _ hnoPlusTriplePre]
      show coreOK (w1 ++ '.' :: (w2 ++ '.' :: (w3 ++ preP))) = true
      exact hCoreOK
    · have hshape : w1 ++ '.' :: (w2 ++ '.' :: (w3 ++ (preP ++ '+' :: joinDot bts)))
          = (w1 ++ '.' :: (w2 ++ '.' :: (w3 ++ preP))) ++ '+' :: joinDot bts := by simp
      rw [hshape]
      rw [pySplit_cons_sep '+' 0 _ _ hnoPlusTriplePre]
      rw [pySplit_zero]
      show (coreOK (w1 ++ '.' :: (w2 ++ '.' :: (w3 ++ preP)))
        && (pySplit '.' none (joinDot bts)).all buildIdentOK) = true
      rw [hCoreOK]
      rw [pySplit_none_dot_join bts hbne (fun t ht =>
        not_mem_of_all_not isIdC '.' rfl t (hbts t ht).2)]
      rw [Bool.true_and, List.all_eq_true]
      intro t ht
      rw [buildIdentOK]
      rw [(hbts t ht).2]
      simp [(hbts t ht).1]
  · -- no newline among the consumed characters
    intro hmem
    simp only [List.mem_append, List.mem_cons] at hmem
    rcases hmem with h' | h' | h' | h' | h' | h' | h'
    · exact not_mem_of_all_not isDig '\n' rfl w1 hw1.1 h'
    · exact absurd h' (by decide)
    · exact not_mem_of_all_not isDig '\n' rfl w2 hw2.1 h'
    · exact absurd h' (by decide)
    · exact not_mem_of_all_not isDig '\n' rfl w3 hw3.1 h'
    · rcases hpreP with rfl | ⟨pts, hpne, rfl, hpts⟩
      · exact absurd h' (by simp)
      · rcases List.mem_cons.mp h' with h'' | h''
        · exact absurd h'' (by decide)
        · exact not_mem_joinDot '\n' pts (by decide) rfl
            (fun t ht => (hpts t ht).2.2) h''
    · rcases hbuildP with rfl | ⟨bts, hbne, rfl, hbts⟩
      · exact absurd h' (by simp)
      · rcases List.mem_cons.mp h' with h'' | h''
        · exact absurd h'' (by decide)
        · exact not_mem_joinDot '\n' bts (by decide) rfl
            (fun t ht => (hbts t ht).2) h''

theorem numericIdent_numTok {w : List Char} (h : numericIdent w = true) : NumTok w := by
  cases w with
  | nil => exact absurd h (by decide)
  | cons c cs =>
    rw [numericIdent] at h
    simp only [Bool.or_eq_true, Bool.and_eq_true] at h
    rcases h with ⟨hc, hcs⟩ | ⟨hc, hcs⟩
    · have hc' : c = '0' := by simpa using hc
      have hcs' : cs = [] := by simpa using hcs
      subst hc'
      subst hcs'
      exact Or.inl rfl
    · exact Or.inr ⟨c, cs, rfl, hc, hcs⟩

theorem preIdentOK_ne_nil {t : List Char} (h : preIdentOK t = true) : t ≠ [] := by
  intro ht
  subst ht
  exact absurd h (by decide)

theorem triple_complete (tc : List Char) (h : tripleOK tc = true) (X : List Char) :
    Matches tripleRE (tc ++ X) X := by
  rw [tripleOK] at h
  rcases hps : pySplit '.' none tc with _ | ⟨a, _ | ⟨b, _ | ⟨c, _ | ⟨d, ds⟩⟩⟩⟩ <;>
    rw [hps] at h
  · exact absurd h (by simp)
  · exact absurd h (by simp)
  · exact absurd h (by simp)
  · obtain ⟨hjoin, hdots⟩ := pySplit_none_dot_inv tc _ hps
    have hj : tc = a ++ '.' :: (b ++ '.' :: c) := hjoin
    subst hj
    have h' : (numericIdent a && numericIdent b && numericIdent c) = true := h
    simp only [Bool.and_eq_true] at h'
    rw [matches_tripleRE_iff]
    exact ⟨a, b, c, numericIdent_numTok h'.1.1, numericIdent_numTok h'.1.2,
      numericIdent_numTok h'.2, by simp⟩
  · exact absurd h (by simp)

theorem semverGrammar_mk (t : List Char) :
    semverGrammar (String.mk t) =
      (match pySplit '+' (some 1) t with
       | [core] => coreOK core
       | [core, build] => coreOK core && (pySplit '.' none build).all buildIdentOK
       | _ => false) := rfl

theorem core_complete (core : List Char) (h : coreOK core = true) (X : List Char) :
    Matches (RE.seq tripleRE (RE.opt (RE.seq (RE.cls (fun c => c = '-')) prereleaseRE)))
      (core ++ X) X := by
  rw [coreOK] at h
  rcases hps : pySplit '-' (some 1) core with _ | ⟨tc, _ | ⟨pj, _ | ⟨x, xs⟩⟩⟩ <;>
    rw [hps] at h
  · exact absurd h (by simp)
  · obtain ⟨hceq, _⟩ := pySplit1_single_inv '-' core tc hps
    rw [hceq]
    have h' : tripleOK tc = true := h
    exact Matches.seq (triple_complete tc h' X) (Matches.altR Matches.eps)
  · obtain ⟨hceq, _⟩ := pySplit1_pair_inv '-' core tc pj hps
    rw [hceq]
    have h' : (tripleOK tc && (pySplit '.' none pj).all preIdentOK) = true := h
    simp only [Bool.and_eq_true] at h'
    obtain ⟨hpj, hdots⟩ := pySplit_none_dot_inv pj _ rfl
    have hshape : (tc ++ '-' :: pj) ++ X = tc ++ ('-' :: pj ++ X) := by simp
    rw [hshape]
    refine Matches.seq (triple_complete tc h'.1 _) (Matches.altL ?_)
    have hshape2 : '-' :: pj ++ X = '-' :: (pj ++ X) := by simp
    rw [hshape2]
    refine Matches.seq (Matches.cls (by simp)) ?_
    have hpre : Matches prereleaseRE (joinDot (pySplit '.' none pj) ++ X) X := by
      refine prerelease_of_tokens _ (pySplit_ne_nil _ _ _) X ?_
      intro u hu
      have hok := List.all_eq_true.mp h'.2 u hu
      exact ⟨hok, preIdentOK_ne_nil hok⟩
    rw [← hpj] at hpre
    exact hpre
  · exact absurd h (by simp)

theorem semver_complete (t r : List Char) (hg : semverGrammar (String.mk t) = true) :
    Matches semverRE (t ++ r) r := by
  rw [semverGrammar_mk] at hg
  rcases hps : pySplit '+' (some 1) t with _ | ⟨core, _ | ⟨build, _ | ⟨x, xs⟩⟩⟩ <;>
    rw [hps] at hg
  · exact absurd hg (by simp)
  · obtain ⟨hteq, _⟩ := pySplit1_single_inv '+' t core hps
    rw [hteq]
    have hg' : coreOK core = true := hg
    have h0 := core_complete core hg' r
    rw [matches_seq_iff] at h0
    obtain ⟨m, htr, hA⟩ := h0
    rw [semverRE, tagsRE]
    exact Matches.seq htr (Matches.seq hA (Matches.altR Matches.eps))
  · obtain ⟨hteq, _⟩ := pySplit1_pair_inv '+' t core build hps
    rw [hteq]
    have hg' : (coreOK core && (pySplit '.' none build).all buildIdentOK) = true := hg
    simp only [Bool.and_eq_true] at hg'
    obtain ⟨hbj, _⟩ := pySplit_none_dot_inv build _ rfl
    have hshape : (core ++ '+' :: build) ++ r = core ++ ('+' :: (build ++ r)) := by simp
    rw [hshape]
    have h0 := core_complete core hg'.1 ('+' :: (build ++ r))
    rw [matches_seq_iff] at h0
    obtain ⟨m, htr, hA⟩ := h0
    rw [semverRE, tagsRE]
    refine Matches.seq htr (Matches.seq hA (Matches.altL ?_))
    refine Matches.seq (Matches.cls (by simp)) ?_
    have hb : Matches buildRE (joinDot (pySplit '.' none build) ++ r) r := by
      refine build_of_tokens _ (pySplit_ne_nil _ _ _) r ?_
      intro u hu
      have hok := List.all_eq_true.mp hg'.2 u hu
      rw [buildIdentOK, Bool.and_eq_true] at hok
      refine ⟨?_, hok.2⟩
      intro hnil
      rw [hnil] at hok
      exact absurd hok.1 (by decide)
    rw [← hbj] at hb
    exact hb
  · exact absurd hg (by simp)

theorem getLast?_decomp (cs : List Char) (c : Char) (h : cs.getLast? = some c) :
    cs = cs.dropLast ++ [c] := by
  induction cs with
  | nil => exact absurd h (by simp)
  | cons x xs ih =>
    cases xs with
    | nil =>
      have hx : x = c := by simpa using h
      subst hx
      rfl
    | cons y ys =>
      rw [List.getLast?_cons_cons] at h
      rw [List.dropLast_cons₂, List.cons_append]
      exact congrArg (x :: ·) (ih h)

theorem stripNl_eq_some (cs : List Char) (c : Char) (h : cs.getLast? = some c) :
    stripNl cs = if c = '\n' then cs.dropLast else cs := by
  have h0 : stripNl cs = (match cs.getLast? with
      | some c => if c = '\n' then cs.dropLast else cs
      | none => cs) := rfl
  rw [h0, h]

theorem stripNl_eq_none (cs : List Char) (h : cs.getLast? = none) :
    stripNl cs = cs := by
  have h0 : stripNl cs = (match cs.getLast? with
      | some c => if c = '\n' then cs.dropLast else cs
      | none => cs) := rfl
  rw [h0, h]

theorem stripNl_decomp (cs : List Char) :
    cs = stripNl cs ++ [] ∨ cs = stripNl cs ++ ['\n'] := by
  cases hL : cs.getLast? with
  | none =>
    left
    rw [stripNl_eq_none cs hL, List.append_nil]
  | some c =>
    by_cases hcn : c = '\n'
    · right
      rw [stripNl_eq_some cs c hL, if_pos hcn]
      subst hcn
      exact getLast?_decomp cs '\n' hL
    · left
      rw [stripNl_eq_some cs c hL, if_neg hcn, List.append_nil]

theorem stripNl_of_not_mem (cs : List Char) (h : '\n' ∉ cs) : stripNl cs = cs := by
  cases hL : cs.getLast? with
  | none => exact stripNl_eq_none cs hL
  | some c =>
    have hcm : c ∈ cs := by
      rw [getLast?_decomp cs c hL]
      simp
    rw [stripNl_eq_some cs c hL, if_neg (fun hc : c = '\n' => h (hc ▸ hcm))]

theorem stripNl_concat_newline (cs : List Char) :
    stripNl (cs ++ ['\n']) = cs := by
  rw [stripNl_eq_some (cs ++ ['\n']) '\n' (by simp), if_pos rfl]
  exact List.dropLast_concat

/-! ## Claim C8 -/

/-- C8 counterexample: Python's `$` anchor also matches just before a
trailing newline, so `is_semver "1.2.3\n"` is true although the entire
string does not conform to the canonical semver grammar — the claimed
`no partial match is accepted` fails on the trailing newline. -/
theorem claim_C8_counterexample :
    is_semver "1.2.3\n" = true ∧ semverGrammar "1.2.3\n" = false := by
  constructor
  · rfl
  · rfl

/-- C8 (amended): `is_semver` accepts exactly the strings that conform to
the canonical semantic-version grammar after discarding at most one
trailing newline (which Python's `$` anchor tolerates); in particular the
two verdicts agree on every newline-free string. -/
theorem claim_C8_semver_grammar (s : String) :
    is_semver s = semverGrammar (String.mk (stripNl s.data)) := by
  by_cases hsem : is_semver s = true
  · rw [hsem]
    obtain ⟨r, hm, hd⟩ := (is_semver_iff s).mp hsem
    obtain ⟨consumed, hceq, hgram, hnl⟩ := semver_sound s.data r hm hd
    have hstrip : stripNl s.data = consumed := by
      rw [hceq]
      rw [dollarOk, Bool.or_eq_true] at hd
      rcases hd with h | h
      · have hre : r = [] := by simpa using h
        subst hre
        rw [List.append_nil]
        exact stripNl_of_not_mem consumed hnl
      · have hre : r = ['\n'] := by simpa using h
        subst hre
        exact stripNl_concat_newline consumed
    rw [hstrip]
    exact hgram.symm
  · have hsem' : is_semver s = false := by
      cases h : is_semver s
      · rfl
      · exact absurd h hsem
    rw [hsem']
    by_contra hg
    have hg' : semverGrammar (String.mk (stripNl s.data)) = true := by
      cases h : semverGrammar (String.mk (stripNl s.data))
      · rw [h] at hg
        exact absurd rfl hg
      · rfl
    rcases stripNl_decomp s.data with hdec | hdec
    · have hm : Matches semverRE s.data [] := by
        have := semver_complete (stripNl s.data) [] hg'
        rw [List.append_nil] at this
        rw [List.append_nil] at hdec
        rw [hdec]
        exact this
      exact absurd ((is_semver_iff s).mpr ⟨[], hm, rfl⟩) hsem
    · have hm : Matches semverRE s.data ['\n'] := by
        have := semver_complete (stripNl s.data) ['\n'] hg'
        rw [hdec]
        exact this
      exact absurd ((is_semver_iff s).mpr ⟨['\n'], hm, rfl⟩) hsem
